import Mathlib

/-!
Verification of the course-outline-to-calendar repository.

The development has two parts.

Part 1 embeds the Next.js proxy routes and the preview page that are present
in the repository source (the three POST handlers in
frontend/app/api/upload-json/route.ts, frontend/app/api/calendar-from-events/route.ts
and the upload-calendar route, together with the preview page helpers
formatEvent and unresolvedCount).

Part 2 models the backend normalization / date-resolution / conservative-merge
engine.  The Python backend sources are not part of the repository snapshot
(only a README describing them is), so the engine is modelled from the
specification, definition by definition; every such definition carries a
doc comment beginning with the words Modelled from the spec.
-/

namespace CourseCal

/-! ## Auxiliary character lemmas (ASCII case mapping, as in Lean core) -/

theorem char_toNat_ofNat_lt (n : Nat) (h : n < 55296) : (Char.ofNat n).toNat = n := by
  have hv : n.isValidChar := Or.inl h
  simp [Char.ofNat, hv, Char.ofNatAux, Char.toNat, UInt32.toNat, BitVec.toNat_ofNatLt]

theorem char_ofNat_toNat (c : Char) : Char.ofNat c.toNat = c := by
  have hv : c.toNat.isValidChar := c.valid
  unfold Char.ofNat
  rw [dif_pos hv]
  apply Char.eq_of_val_eq
  apply UInt32.eq_of_toBitVec_eq
  apply BitVec.eq_of_toNat_eq
  simp [Char.ofNatAux, Char.toNat, UInt32.toNat]

theorem char_toLower_idem (c : Char) : c.toLower.toLower = c.toLower := by
  unfold Char.toLower
  by_cases h : c.toNat ≥ 65 ∧ c.toNat ≤ 90
  · have h1 : (Char.ofNat (c.toNat + 32)).toNat = c.toNat + 32 :=
      char_toNat_ofNat_lt _ (by omega)
    simp [h, h1]
    omega
  · simp [h]

theorem char_toLower_toUpper (c : Char) : c.toUpper.toLower = c.toLower := by
  unfold Char.toUpper Char.toLower
  by_cases h : c.toNat ≥ 97 ∧ c.toNat ≤ 122
  · have h1 : (Char.ofNat (c.toNat - 32)).toNat = c.toNat - 32 :=
      char_toNat_ofNat_lt _ (by omega)
    have h3 : c.toNat - 32 + 32 = c.toNat := by omega
    have h4 : ¬ (65 ≤ c.toNat ∧ c.toNat ≤ 90) := by omega
    have h5 : 65 ≤ c.toNat - 32 := by omega
    simp [h, h1, h4, h5]
    rw [h3, char_ofNat_toNat]
  · simp [h]

/-! ## Part 1: the Next.js proxy routes and preview page -/

/-- JSON values, as a proxy handler sees a parsed request or response body. -/
inductive Json where
  | null : Json
  | bool (b : Bool) : Json
  | num (n : Int) : Json
  | str (s : String) : Json
  | arr (elems : List Json) : Json
  | obj (fields : List (String × Json)) : Json

/-- Array.isArray on a parsed JSON value. -/
def Json.isArr : Json → Bool
  | .arr _ => true
  | _ => false

/-- The JSON body NextResponse.json builds for a one-field error object. -/
def errorJson (msg : String) : Json := Json.obj [("error", Json.str msg)]

/-- Truthiness of an optional environment-variable string, as JavaScript
coerces process.env values: undefined and the empty string are falsy. -/
def envTruthy : Option String → Bool
  | none => false
  | some s => s != ""

/-- A value stored under a key of a multipart FormData object: either a file
(with a name and opaque content) or a plain string field. -/
inductive FormValue where
  | file (name : String) (content : String) : FormValue
  | field (s : String) : FormValue

/-- Response of the FastAPI backend, as observed by a proxy handler.
Byte payloads are modelled as strings. -/
structure BackendResp where
  status : Nat
  contentTypeJson : Bool
  jsonBody : Json
  textBody : String

/-- What one invocation of a proxy POST handler produced: the HTTP status,
the response body, and the backend URL it fetched, if any. -/
structure ProxyOutcome where
  status : Nat
  body : Json
  fetchedUrl : Option String

/-- The POST handler of frontend/app/api/upload-json/route.ts: check
FASTAPI_BASE_URL, check the multipart file entry, forward to the backend
upload-json endpoint, and relay the JSON (or text) answer. -/
def uploadJsonPOST (env : Option String) (formFile : Option FormValue)
    (backend : String → BackendResp) : ProxyOutcome :=
  if envTruthy env = false then
    { status := 500, body := errorJson "FASTAPI_BASE_URL is not set", fetchedUrl := none }
  else
    match formFile with
    | some (FormValue.file _ _) =>
        let url := (env.getD "") ++ "/upload-json"
        let r := backend url
        { status := r.status
          body := if r.contentTypeJson then r.jsonBody else Json.str r.textBody
          fetchedUrl := some url }
    | _ =>
        { status := 400, body := errorJson "Missing \x27file\x27 in multipart/form-data"
          fetchedUrl := none }

/-- The POST handler of frontend/app/api/calendar-from-events/route.ts: check
FASTAPI_BASE_URL, parse the JSON body (a failed parse throws and is caught as
a 500 proxy error), reject non-array payloads with a 400, otherwise forward
to the backend calendar-from-events endpoint and relay the bytes. -/
def calendarFromEventsPOST (env : Option String) (body : Option Json)
    (backend : String → BackendResp) : ProxyOutcome :=
  if envTruthy env = false then
    { status := 500, body := errorJson "FASTAPI_BASE_URL is not set", fetchedUrl := none }
  else
    match body with
    | none =>
        { status := 500, body := errorJson "Proxy error", fetchedUrl := none }
    | some events =>
        if events.isArr = false then
          { status := 400, body := errorJson "Invalid events payload", fetchedUrl := none }
        else
          let url := (env.getD "") ++ "/calendar-from-events"
          let r := backend url
          { status := r.status, body := Json.str r.textBody, fetchedUrl := some url }

/-- The POST handler of the upload-calendar route: check FASTAPI_BASE_URL,
check the multipart file entry, forward to the backend upload-calendar
endpoint and relay the ICS bytes. -/
def uploadCalendarPOST (env : Option String) (formFile : Option FormValue)
    (backend : String → BackendResp) : ProxyOutcome :=
  if envTruthy env = false then
    { status := 500, body := errorJson "FASTAPI_BASE_URL is not set", fetchedUrl := none }
  else
    match formFile with
    | some (FormValue.file _ _) =>
        let url := (env.getD "") ++ "/upload-calendar"
        let r := backend url
        { status := r.status, body := Json.str r.textBody, fetchedUrl := some url }
    | _ =>
        { status := 400, body := errorJson "Missing \x27file\x27 in multipart/form-data"
          fetchedUrl := none }

/-- A course event as typed in the preview page (type CourseEvent). -/
structure CourseEvent where
  date : Option String
  title : String
  description : Option String
  event_type : String
  time : Option String
  recurrence : Option String
  byday : Option (List String)
  untilDate : Option String

/-- JavaScript falsiness of the date field (null or empty string), the test
the preview page uses to count an event as unresolved. -/
def dateFalsy : Option String → Bool
  | none => true
  | some s => s == ""

/-- The unresolvedCount memo of the preview page: the number of events whose
date field is falsy. -/
def unresolvedCount (events : List CourseEvent) : Nat :=
  (events.filter (fun e => dateFalsy e.date)).length

/-- The date binding of formatEvent: the nullish-coalescing expression
ev.date with an em-dash fallback; only null (not the empty string)
triggers the fallback. -/
def fmtDate (ev : CourseEvent) : String :=
  match ev.date with
  | none => "—"
  | some s => s

/-- The time binding of formatEvent: a middle-dot separated time when the
time field is truthy, the empty string otherwise. -/
def fmtTime (ev : CourseEvent) : String :=
  match ev.time with
  | none => ""
  | some t => if t == "" then "" else " · " ++ t

/-- The type binding of formatEvent: the upper-cased event type when it is a
truthy string, with OTHER as the fallback for the empty string. -/
def fmtType (ev : CourseEvent) : String :=
  if ev.event_type == "" then "OTHER" else ev.event_type.toUpper

/-- formatEvent of the preview page. -/
def formatEvent (ev : CourseEvent) : String :=
  fmtDate ev ++ fmtTime ev ++ " · " ++ fmtType ev

/-- A constant backend answering every fetch, used to instantiate theorems
at concrete inputs. -/
def constBackend : String → BackendResp :=
  fun _ => { status := 200, contentTypeJson := true, jsonBody := Json.arr [], textBody := "" }

/-- C8: each of the three proxy POST handlers, invoked with FASTAPI_BASE_URL
unset, returns HTTP 500 with the JSON body having the single field error set
to the string FASTAPI_BASE_URL is not set, and fetches no backend URL,
regardless of the rest of the request and of the backend behaviour. -/
theorem c8_env_unset_gives_500_no_fetch (formFile : Option FormValue)
    (body : Option Json) (backend : String → BackendResp) :
    uploadJsonPOST none formFile backend =
      { status := 500, body := errorJson "FASTAPI_BASE_URL is not set", fetchedUrl := none } ∧
    calendarFromEventsPOST none body backend =
      { status := 500, body := errorJson "FASTAPI_BASE_URL is not set", fetchedUrl := none } ∧
    uploadCalendarPOST none formFile backend =
      { status := 500, body := errorJson "FASTAPI_BASE_URL is not set", fetchedUrl := none } :=
  ⟨rfl, rfl, rfl⟩

/-- C9 counterexample: with FASTAPI_BASE_URL unset, a request whose JSON body
is null (not an array) is answered with status 500, not with the 400 the
claim promises for every non-array payload. -/
theorem c9_counterexample_env_unset :
    (calendarFromEventsPOST none (some Json.null) constBackend).status = 500 ∧
    (calendarFromEventsPOST none (some Json.null) constBackend).status ≠ 400 :=
  ⟨rfl, by decide⟩

/-- C9 amended: provided FASTAPI_BASE_URL is set to a truthy (non-empty)
value, every request whose parsed JSON body is not an array is answered with
HTTP 400 and the JSON body with single field error set to the string Invalid
events payload, and nothing is forwarded to the backend. -/
theorem c9_nonarray_gives_400 (env : Option String) (j : Json)
    (backend : String → BackendResp)
    (henv : envTruthy env = true) (hj : j.isArr = false) :
    calendarFromEventsPOST env (some j) backend =
      { status := 400, body := errorJson "Invalid events payload", fetchedUrl := none } := by
  unfold calendarFromEventsPOST
  rw [henv]
  simp [hj]

/-- C9 witness: the amended statement applied at a concrete environment and a
concrete non-array body. -/
theorem c9_nonarray_gives_400_witness :
    envTruthy (some "http://backend") = true ∧ Json.isArr Json.null = false ∧
    calendarFromEventsPOST (some "http://backend") (some Json.null) constBackend =
      { status := 400, body := errorJson "Invalid events payload", fetchedUrl := none } :=
  ⟨rfl, rfl, c9_nonarray_gives_400 (some "http://backend") Json.null constBackend rfl rfl⟩

/-- The concrete preview event exhibiting the C10 counterexample: its date is
the empty string, so it is counted as unresolved, yet formatEvent does not
render the em-dash placeholder for it. -/
def emptyDateEvent : CourseEvent :=
  { date := some "", title := "Quiz", description := none, event_type := "quiz"
    time := none, recurrence := none, byday := none, untilDate := none }

/-- C10 counterexample: an event with an empty-string date is counted as
unresolved by the preview page, but formatEvent renders its date as the empty
string, not as the em-dash placeholder, because the nullish-coalescing
operator does not fire on the empty string. -/
theorem c10_counterexample_empty_date :
    dateFalsy (emptyDateEvent).date = true ∧
    fmtDate emptyDateEvent = "" ∧
    fmtDate emptyDateEvent ≠ "—" ∧
    formatEvent emptyDateEvent = " · QUIZ" := by
  refine ⟨rfl, rfl, by decide, ?_⟩
  show fmtDate emptyDateEvent ++ fmtTime emptyDateEvent ++ " · " ++ fmtType emptyDateEvent = _
  rw [show fmtType emptyDateEvent = String.toUpper "quiz" from rfl, String.toUpper, String.map_eq]
  decide

/-- C10 amended: an event is counted as unresolved exactly when its date is
falsy (null or the empty string); formatEvent renders the em-dash placeholder
exactly for a null date, while an empty-string date is rendered as the empty
string; and the type token is always non-empty, falling back to OTHER when
event_type is the empty string and upper-casing it otherwise. -/
theorem c10_unresolved_and_format (ev : CourseEvent) :
    (dateFalsy ev.date = true ↔ (ev.date = none ∨ ev.date = some "")) ∧
    (ev.date = none → fmtDate ev = "—") ∧
    (∀ s : String, ev.date = some s → fmtDate ev = s) ∧
    (ev.event_type = "" → fmtType ev = "OTHER") ∧
    (ev.event_type ≠ "" → fmtType ev = ev.event_type.toUpper) ∧
    fmtType ev ≠ "" := by
  refine ⟨?_, ?_, ?_, ?_, ?_, ?_⟩
  · cases h : ev.date with
    | none => simp [dateFalsy]
    | some s => simp [dateFalsy]
  · intro h; simp [fmtDate, h]
  · intro s h; simp [fmtDate, h]
  · intro h; simp [fmtType, h]
  · intro h; simp [fmtType, h]
  · by_cases h : ev.event_type = ""
    · simp [fmtType, h]
    · simp only [fmtType, beq_iff_eq, if_neg h]
      rw [String.toUpper, String.map_eq]
      intro hc
      apply h
      have hdata : ev.event_type.data.map Char.toUpper = [] := congrArg String.data hc
      have : ev.event_type.data = [] := List.map_eq_nil_iff.mp hdata
      cases hs : ev.event_type with
      | mk data => simp_all

/-- C10 witness: the amended statement applied at a concrete event with a
null date and an empty type. -/
theorem c10_unresolved_and_format_witness :
    fmtDate { date := none, title := "", description := none, event_type := ""
              time := none, recurrence := none, byday := none, untilDate := none } = "—" ∧
    fmtType { date := none, title := "", description := none, event_type := ""
              time := none, recurrence := none, byday := none, untilDate := none } = "OTHER" :=
  ⟨(c10_unresolved_and_format _).2.1 rfl, (c10_unresolved_and_format _).2.2.2.1 rfl⟩

/-! ## Part 2: the engine, modelled from the spec

The backend sources are absent from the repository snapshot, so every
definition below is modelled from the specification text (sections 3, 4, 7
and 8) and says so in its doc comment. -/

/-! ### Character-list machinery (kernel-computable string processing) -/

/-- Association lookup with character-list keys. -/
def assocLookup {β : Type} : List (List Char × β) → List Char → Option β
  | [], _ => none
  | (k, v) :: rest, t => if t = k then some v else assocLookup rest t

/-- Split a character list at a separator, dropping empty pieces; the
accumulator holds the current token reversed. -/
def splitChAux (sep : Char) : List Char → List Char → List (List Char)
  | [], acc => if acc = [] then [] else [acc.reverse]
  | c :: cs, acc =>
    if c = sep then
      if acc = [] then splitChAux sep cs []
      else acc.reverse :: splitChAux sep cs []
    else splitChAux sep cs (c :: acc)

/-- Split a character list at a separator, dropping empty pieces. -/
def splitCh (sep : Char) (cs : List Char) : List (List Char) := splitChAux sep cs []

/-- Interleave single spaces between tokens. -/
def interSp : List (List Char) → List Char
  | [] => []
  | [t] => t
  | t :: ts => t ++ ' ' :: interSp ts

/-- Punctuation characters stripped from token edges by the normalizer. -/
def punctList : List Char := ['.', ',', ':', ';', '!', '?', '(', ')', '[', ']', '-']

/-- Membership in the punctuation set. -/
def isPunct (c : Char) : Bool := punctList.contains c

/-- Digit test, as a Bool-valued function on characters. -/
def isDigitB (c : Char) : Bool := decide (48 ≤ c.toNat ∧ c.toNat ≤ 57)

/-- Strip leading and trailing punctuation from one token. -/
def stripPunct (t : List Char) : List Char :=
  ((t.dropWhile isPunct).reverse.dropWhile isPunct).reverse

/-- Modelled from the spec: the table converting spelled-out ordinals and
cardinals to digit strings (section 4.1). -/
def ordinalTable : List (List Char × List Char) :=
  [("one".data, "1".data), ("two".data, "2".data), ("three".data, "3".data),
   ("four".data, "4".data), ("five".data, "5".data), ("six".data, "6".data),
   ("seven".data, "7".data), ("eight".data, "8".data), ("nine".data, "9".data),
   ("ten".data, "10".data),
   ("first".data, "1".data), ("second".data, "2".data), ("third".data, "3".data),
   ("fourth".data, "4".data), ("fifth".data, "5".data), ("sixth".data, "6".data),
   ("seventh".data, "7".data), ("eighth".data, "8".data), ("ninth".data, "9".data),
   ("tenth".data, "10".data)]

/-- Apply the ordinal table to one token, keeping it unchanged on a miss. -/
def ordinalize (t : List Char) : List Char := (assocLookup ordinalTable t).getD t

/-- Modelled from the spec: strip symbol noise (a leading hash sign or a
leading No.) adjacent to numerals (section 4.1), at token level. -/
def noiseStrip (t : List Char) : List Char :=
  match t with
  | '#' :: rest => if rest ≠ [] ∧ rest.all isDigitB then rest else t
  | 'n' :: 'o' :: '.' :: rest => if rest ≠ [] ∧ rest.all isDigitB then rest else t
  | _ => t

/-- The per-token cleaning pipeline of the normalizer: strip punctuation,
convert ordinals, strip symbol noise. -/
def procToken (t : List Char) : List Char := noiseStrip (ordinalize (stripPunct t))

/-- Case-fold a character list. -/
def lowerL (cs : List Char) : List Char := cs.map Char.toLower

/-- The cleaned tokens of a title: case-fold, split on whitespace (which
also collapses runs of it), clean each token, drop emptied tokens. -/
def titleKeyTokens (cs : List Char) : List (List Char) :=
  ((splitCh ' ' (lowerL cs)).map procToken).filter (fun t => t ≠ [])

/-- The cleaned, canonical lookup key of a title. -/
def titleKey (cs : List Char) : List Char := interSp (titleKeyTokens cs)

/-- Modelled from the spec: the alias table mapping cleaned variant phrases
to a canonical phrase (section 4.1); configurable data, one concrete
configuration is modelled. -/
def aliasTable : List (List Char × List Char) :=
  [("midterm 1".data, "Midterm 1".data),
   ("midterm exam 1".data, "Midterm 1".data),
   ("final exam".data, "Final Exam".data),
   ("problem set 1".data, "Problem Set 1".data)]

/-- Capitalize the first character of a token (title-casing step). -/
def capToken : List Char → List Char
  | [] => []
  | c :: cs => c.toUpper :: cs

/-- Title-case a token list and join it with single spaces. -/
def titleCaseOf (ts : List (List Char)) : List Char := interSp (ts.map capToken)

/-- Modelled from the spec: normalize_title (section 4.1) on character
lists: case-fold, strip edge punctuation and collapse whitespace, convert
spelled-out ordinals, strip symbol noise, then apply the alias table; on an
alias miss return the cleaned string title-cased. -/
def normalizeTitleL (cs : List Char) : List Char :=
  match assocLookup aliasTable (titleKey cs) with
  | some canon => canon
  | none => titleCaseOf (titleKeyTokens cs)

/-- Modelled from the spec: normalize_title (section 4.1), a deterministic
total function from strings to strings. -/
def normalize_title (s : String) : String := ⟨normalizeTitleL s.data⟩

/-- Whether the alias table fired on a title, recorded for the conservative
merge gate of section 4.4 step 3. -/
def aliasApplied (s : String) : Bool := (assocLookup aliasTable (titleKey s.data)).isSome

/-! ### Idempotence of the title normalizer -/

theorem dropWhile_eq_self_of_false {α : Type} (p : α → Bool) (l : List α)
    (h : ∀ a ∈ l, p a = false) : l.dropWhile p = l := by
  cases l with
  | nil => rfl
  | cons a t => simp [List.dropWhile_cons, h a (by simp)]

theorem exists_prepend_dropWhile {α : Type} (p : α → Bool) (l : List α) :
    ∃ pre, pre ++ l.dropWhile p = l := by
  induction l with
  | nil => exact ⟨[], rfl⟩
  | cons a t ih =>
    by_cases h : p a = true
    · obtain ⟨pre, hp⟩ := ih
      exact ⟨a :: pre, by simp [List.dropWhile_cons, h, hp]⟩
    · exact ⟨[], by simp [List.dropWhile_cons, h]⟩

theorem mem_dropWhile_subset {α : Type} (p : α → Bool) (l : List α) (c : α)
    (h : c ∈ l.dropWhile p) : c ∈ l := by
  obtain ⟨pre, hp⟩ := exists_prepend_dropWhile p l
  rw [← hp]
  exact List.mem_append_right _ h

theorem dropWhile_idem {α : Type} (p : α → Bool) (l : List α) :
    (l.dropWhile p).dropWhile p = l.dropWhile p := by
  induction l with
  | nil => rfl
  | cons a t ih =>
    by_cases h : p a = true
    · simp [List.dropWhile_cons, h, ih]
    · simp [List.dropWhile_cons, h]

theorem dropWhile_eq_self_head {α : Type} (p : α → Bool) (l : List α)
    (h : l.dropWhile p = l) : l = [] ∨ ∃ a t, l = a :: t ∧ p a = false := by
  cases l with
  | nil => exact Or.inl rfl
  | cons a t =>
    right
    by_cases hpa : p a = true
    · exfalso
      rw [List.dropWhile_cons, if_pos hpa] at h
      obtain ⟨pre, hp⟩ := exists_prepend_dropWhile p t
      have h1 : (t.dropWhile p).length ≤ t.length := by
        conv_rhs => rw [← hp]
        simp
      rw [h] at h1
      simp at h1
    · exact ⟨a, t, rfl, by simpa using hpa⟩

theorem stripPunct_idem (t : List Char) : stripPunct (stripPunct t) = stripPunct t := by
  unfold stripPunct
  set u := t.dropWhile isPunct with hu
  have huu : u.dropWhile isPunct = u := by rw [hu]; exact dropWhile_idem _ t
  set v := (u.reverse.dropWhile isPunct).reverse with hv
  have hvrev : v.reverse = u.reverse.dropWhile isPunct := by rw [hv]; simp
  have hdv : v.dropWhile isPunct = v := by
    obtain ⟨pre, hp⟩ := exists_prepend_dropWhile isPunct u.reverse
    have husplit : u = v ++ pre.reverse := by
      have := congrArg List.reverse hp
      simpa [hv] using this.symm
    cases hcv : v with
    | nil => rfl
    | cons a v2 =>
      have hua : u = a :: (v2 ++ pre.reverse) := by rw [husplit, hcv]; simp
      rcases dropWhile_eq_self_head isPunct u huu with h0 | ⟨b, t2, hbt, hpb⟩
      · rw [h0] at hua; exact absurd hua (by simp)
      · have hab : a = b := by
          rw [hua] at hbt
          exact (List.cons.injEq _ _ _ _ ▸ hbt).1
        rw [hcv] at *
        rw [List.dropWhile_cons, if_neg (by rw [hab]; simp [hpb])]
  rw [hdv, hvrev, dropWhile_idem]

theorem stripPunct_eq_self (t : List Char) (h : ∀ c ∈ t, isPunct c = false) :
    stripPunct t = t := by
  unfold stripPunct
  rw [dropWhile_eq_self_of_false _ _ h]
  rw [dropWhile_eq_self_of_false _ _ (fun c hc => h c (by simpa using hc))]
  simp

theorem mem_stripPunct_subset (t : List Char) (c : Char) (hc : c ∈ stripPunct t) :
    c ∈ t := by
  unfold stripPunct at hc
  rw [List.mem_reverse] at hc
  have h1 := mem_dropWhile_subset _ _ _ hc
  rw [List.mem_reverse] at h1
  exact mem_dropWhile_subset _ _ _ h1

theorem splitChAux_token_ne_nil (sep : Char) (cs : List Char) :
    ∀ acc t, t ∈ splitChAux sep cs acc → t ≠ [] := by
  induction cs with
  | nil =>
    intro acc t ht
    by_cases h : acc = []
    · simp [splitChAux, h] at ht
    · simp [splitChAux, h] at ht
      rw [ht]
      simpa using h
  | cons c cs ih =>
    intro acc t ht
    by_cases hc : c = sep
    · by_cases ha : acc = []
      · rw [show splitChAux sep (c :: cs) acc = splitChAux sep cs [] by
          simp [splitChAux, hc, ha]] at ht
        exact ih [] t ht
      · rw [show splitChAux sep (c :: cs) acc = acc.reverse :: splitChAux sep cs [] by
          simp [splitChAux, hc, ha]] at ht
        rcases List.mem_cons.mp ht with h1 | h1
        · rw [h1]; simpa using ha
        · exact ih [] t h1
    · rw [show splitChAux sep (c :: cs) acc = splitChAux sep cs (c :: acc) by
        simp [splitChAux, hc]] at ht
      exact ih (c :: acc) t ht

theorem splitChAux_no_sep (sep : Char) (cs : List Char) :
    ∀ acc, sep ∉ acc → ∀ t ∈ splitChAux sep cs acc, sep ∉ t := by
  induction cs with
  | nil =>
    intro acc hacc t ht
    by_cases h : acc = []
    · simp [splitChAux, h] at ht
    · simp [splitChAux, h] at ht
      rw [ht, List.mem_reverse]
      exact hacc
  | cons c cs ih =>
    intro acc hacc t ht
    by_cases hc : c = sep
    · by_cases ha : acc = []
      · rw [show splitChAux sep (c :: cs) acc = splitChAux sep cs [] by
          simp [splitChAux, hc, ha]] at ht
        exact ih [] (by simp) t ht
      · rw [show splitChAux sep (c :: cs) acc = acc.reverse :: splitChAux sep cs [] by
          simp [splitChAux, hc, ha]] at ht
        rcases List.mem_cons.mp ht with h1 | h1
        · rw [h1, List.mem_reverse]; exact hacc
        · exact ih [] (by simp) t h1
    · rw [show splitChAux sep (c :: cs) acc = splitChAux sep cs (c :: acc) by
        simp [splitChAux, hc]] at ht
      refine ih (c :: acc) ?_ t ht
      intro hin
      rcases List.mem_cons.mp hin with h1 | h1
      · exact hc h1.symm
      · exact hacc h1

theorem splitChAux_mem (sep : Char) (cs : List Char) :
    ∀ acc t, t ∈ splitChAux sep cs acc → ∀ c ∈ t, c ∈ cs ∨ c ∈ acc := by
  induction cs with
  | nil =>
    intro acc t ht c hc
    by_cases h : acc = []
    · simp [splitChAux, h] at ht
    · simp [splitChAux, h] at ht
      right
      rw [ht, List.mem_reverse] at hc
      exact hc
  | cons c0 cs ih =>
    intro acc t ht c hc
    by_cases hc0 : c0 = sep
    · by_cases ha : acc = []
      · rw [show splitChAux sep (c0 :: cs) acc = splitChAux sep cs [] by
          simp [splitChAux, hc0, ha]] at ht
        rcases ih [] t ht c hc with h1 | h1
        · exact Or.inl (List.mem_cons_of_mem _ h1)
        · simp at h1
      · rw [show splitChAux sep (c0 :: cs) acc = acc.reverse :: splitChAux sep cs [] by
          simp [splitChAux, hc0, ha]] at ht
        rcases List.mem_cons.mp ht with h1 | h1
        · right; rw [h1, List.mem_reverse] at hc; exact hc
        · rcases ih [] t h1 c hc with h2 | h2
          · exact Or.inl (List.mem_cons_of_mem _ h2)
          · simp at h2
    · rw [show splitChAux sep (c0 :: cs) acc = splitChAux sep cs (c0 :: acc) by
        simp [splitChAux, hc0]] at ht
      rcases ih (c0 :: acc) t ht c hc with h1 | h1
      · exact Or.inl (List.mem_cons_of_mem _ h1)
      · rcases List.mem_cons.mp h1 with h2 | h2
        · exact Or.inl (h2 ▸ List.mem_cons_self _ _)
        · exact Or.inr h2

theorem splitChAux_append (sep : Char) (t : List Char) (h : sep ∉ t) :
    ∀ cs acc, splitChAux sep (t ++ cs) acc = splitChAux sep cs (t.reverse ++ acc) := by
  induction t with
  | nil => intro cs acc; simp
  | cons a t ih =>
    intro cs acc
    have ha : ¬ (a = sep) := fun e => h (e ▸ List.mem_cons_self a t)
    have ht : sep ∉ t := fun e => h (List.mem_cons_of_mem a e)
    show splitChAux sep (a :: (t ++ cs)) acc = _
    rw [show splitChAux sep (a :: (t ++ cs)) acc = splitChAux sep (t ++ cs) (a :: acc) by
      simp [splitChAux, ha]]
    rw [ih ht cs (a :: acc)]
    simp

theorem splitCh_interSp (T : List (List Char)) (h : ∀ t ∈ T, t ≠ [] ∧ ' ' ∉ t) :
    splitCh ' ' (interSp T) = T := by
  induction T with
  | nil => rfl
  | cons t ts ih =>
    obtain ⟨hne, hns⟩ := h t (List.mem_cons_self _ _)
    cases ts with
    | nil =>
      show splitChAux ' ' (interSp [t]) [] = [t]
      have h1 : interSp [t] = t ++ [] := by simp [interSp]
      rw [h1, splitChAux_append ' ' t hns [] []]
      simp [splitChAux, hne]
    | cons t2 ts2 =>
      show splitChAux ' ' (t ++ ' ' :: interSp (t2 :: ts2)) [] = t :: t2 :: ts2
      rw [splitChAux_append ' ' t hns (' ' :: interSp (t2 :: ts2)) []]
      rw [show splitChAux ' ' (' ' :: interSp (t2 :: ts2)) (t.reverse ++ []) =
          (t.reverse ++ []).reverse :: splitChAux ' ' (interSp (t2 :: ts2)) [] by
        simp [splitChAux, hne]]
      have h2 := ih (fun u hu => h u (List.mem_cons_of_mem _ hu))
      rw [show splitChAux ' ' (interSp (t2 :: ts2)) [] = splitCh ' ' (interSp (t2 :: ts2)) from rfl]
      rw [h2]
      simp

theorem lowerL_interSp (T : List (List Char)) :
    lowerL (interSp T) = interSp (T.map lowerL) := by
  induction T with
  | nil => rfl
  | cons t ts ih =>
    cases ts with
    | nil => rfl
    | cons t2 ts2 =>
      show lowerL (t ++ ' ' :: interSp (t2 :: ts2)) = lowerL t ++ ' ' :: interSp ((t2 :: ts2).map lowerL)
      have h1 : lowerL (t ++ ' ' :: interSp (t2 :: ts2)) =
          lowerL t ++ ' ' :: lowerL (interSp (t2 :: ts2)) := by
        simp [lowerL, show Char.toLower ' ' = ' ' from by decide]
      rw [h1, ih]

/-- The invariant of every token the normalizer emits: non-empty, space-free,
fixed under case-folding and under each per-token cleaning step. -/
def TokGood (t : List Char) : Prop :=
  t ≠ [] ∧ (∀ c ∈ t, c.toLower = c ∧ c ≠ ' ') ∧
  stripPunct t = t ∧ ordinalize t = t ∧ noiseStrip t = t

theorem toLower_of_isDigit (c : Char) (h : isDigitB c = true) : c.toLower = c := by
  simp only [isDigitB, decide_eq_true_eq] at h
  unfold Char.toLower
  rw [if_neg (by omega)]

theorem isPunct_of_isDigit_false (c : Char) (h : isDigitB c = true) : isPunct c = false := by
  by_contra hc
  have hmem : c ∈ punctList := by
    simpa [isPunct, decide_eq_true_eq] using hc
  fin_cases hmem <;> exact absurd h (by decide)

theorem ne_space_of_isDigit (c : Char) (h : isDigitB c = true) : c ≠ ' ' := by
  intro e
  rw [e] at h
  exact absurd h (by decide)

theorem noiseStrip_eq_self_of_digits (t : List Char) (hne : t ≠ [])
    (hd : t.all isDigitB = true) : noiseStrip t = t := by
  unfold noiseStrip
  split
  · rename_i rest
    exfalso
    rw [List.all_cons, Bool.and_eq_true] at hd
    have h1 : isDigitB '#' = true := hd.1
    exact absurd h1 (by decide)
  · rename_i rest
    exfalso
    rw [List.all_cons, Bool.and_eq_true] at hd
    have h1 : isDigitB 'n' = true := hd.1
    exact absurd h1 (by decide)
  · rfl

theorem noiseStrip_cases (t : List Char) :
    noiseStrip t = t ∨ (noiseStrip t ≠ [] ∧ (noiseStrip t).all isDigitB = true) := by
  unfold noiseStrip
  split
  · rename_i rest
    by_cases h : rest ≠ [] ∧ rest.all isDigitB = true
    · rw [if_pos h]
      exact Or.inr ⟨h.1, h.2⟩
    · rw [if_neg (by simpa using h)]
      exact Or.inl rfl
  · rename_i rest
    by_cases h : rest ≠ [] ∧ rest.all isDigitB = true
    · rw [if_pos h]
      exact Or.inr ⟨h.1, h.2⟩
    · rw [if_neg (by simpa using h)]
      exact Or.inl rfl
  · exact Or.inl rfl

theorem assocLookup_some_key {β : Type} (l : List (List Char × β)) (t : List Char) (v : β)
    (h : assocLookup l t = some v) : (t, v) ∈ l := by
  induction l with
  | nil => simp [assocLookup] at h
  | cons p rest ih =>
    obtain ⟨k, v0⟩ := p
    by_cases ht : t = k
    · rw [show assocLookup ((k, v0) :: rest) t = some v0 by simp [assocLookup, ht]] at h
      have : v0 = v := by injection h
      rw [ht, ← this]
      exact List.mem_cons_self _ _
    · rw [show assocLookup ((k, v0) :: rest) t = assocLookup rest t by
        simp [assocLookup, ht]] at h
      exact List.mem_cons_of_mem _ (ih h)

theorem ordinal_values_good :
    ∀ p ∈ ordinalTable, p.2 ≠ [] ∧ p.2.all isDigitB = true ∧
      assocLookup ordinalTable p.2 = none := by decide

theorem ordinal_keys_not_digits : ∀ p ∈ ordinalTable, p.1.all isDigitB = false := by decide

theorem assocLookup_ordinal_digits (t : List Char) (hd : t.all isDigitB = true) :
    assocLookup ordinalTable t = none := by
  cases h : assocLookup ordinalTable t with
  | none => rfl
  | some v =>
    have hm := assocLookup_some_key _ _ _ h
    have hk := ordinal_keys_not_digits (t, v) hm
    rw [hd] at hk
    exact absurd hk (by decide)

theorem tok_digit_good (t : List Char) (hne : t ≠ []) (hd : t.all isDigitB = true) :
    TokGood t := by
  refine ⟨hne, ?_, ?_, ?_, noiseStrip_eq_self_of_digits t hne hd⟩
  · intro c hc
    have hdc := List.all_eq_true.mp hd c hc
    exact ⟨toLower_of_isDigit c hdc, ne_space_of_isDigit c hdc⟩
  · exact stripPunct_eq_self t (fun c hc =>
      isPunct_of_isDigit_false c (List.all_eq_true.mp hd c hc))
  · simp [ordinalize, assocLookup_ordinal_digits t hd]

theorem procToken_good (u : List Char) (hne : procToken u ≠ [])
    (hlf : ∀ c ∈ u, c.toLower = c) (hns : ' ' ∉ u) : TokGood (procToken u) := by
  have hchars : ∀ c ∈ stripPunct u, c.toLower = c ∧ c ≠ ' ' := fun c hc =>
    ⟨hlf c (mem_stripPunct_subset u c hc),
     fun e => hns (e ▸ mem_stripPunct_subset u c hc)⟩
  have hss : stripPunct (stripPunct u) = stripPunct u := stripPunct_idem u
  cases ho : assocLookup ordinalTable (stripPunct u) with
  | some v =>
    have hv := assocLookup_some_key _ _ _ ho
    obtain ⟨hvne, hvd, hvl⟩ := ordinal_values_good _ hv
    have hpv : procToken u = v := by
      simp [procToken, ordinalize, ho, noiseStrip_eq_self_of_digits v hvne hvd]
    rw [hpv]
    exact tok_digit_good v hvne hvd
  | none =>
    have hord : ordinalize (stripPunct u) = stripPunct u := by simp [ordinalize, ho]
    rcases noiseStrip_cases (stripPunct u) with hnn | ⟨hne2, hdig⟩
    · have hp : procToken u = stripPunct u := by
        simp [procToken, hord, hnn]
      rw [hp]
      exact ⟨hp ▸ hne, hchars, hss, hord, hnn⟩
    · have hp : procToken u = noiseStrip (stripPunct u) := by
        simp [procToken, hord]
      rw [hp]
      exact tok_digit_good _ hne2 hdig

theorem titleKeyTokens_good (cs : List Char) : ∀ t ∈ titleKeyTokens cs, TokGood t := by
  intro t ht
  unfold titleKeyTokens at ht
  rw [List.mem_filter] at ht
  obtain ⟨hmem, hneb⟩ := ht
  have hne : t ≠ [] := of_decide_eq_true hneb
  rw [List.mem_map] at hmem
  obtain ⟨u, hu, hpu⟩ := hmem
  have hlf : ∀ c ∈ u, c.toLower = c := by
    intro c hc
    rcases splitChAux_mem ' ' (lowerL cs) [] u hu c hc with h1 | h1
    · unfold lowerL at h1
      rw [List.mem_map] at h1
      obtain ⟨c0, _, hc0⟩ := h1
      rw [← hc0]
      exact char_toLower_idem c0
    · simp at h1
  have hns : ' ' ∉ u := splitChAux_no_sep ' ' (lowerL cs) [] (by simp) u hu
  exact hpu ▸ procToken_good u (hpu ▸ hne) hlf hns

theorem capToken_lower (t : List Char) (h : ∀ c ∈ t, c.toLower = c) :
    lowerL (capToken t) = t := by
  cases t with
  | nil => rfl
  | cons c cs =>
    show Char.toLower c.toUpper :: cs.map Char.toLower = c :: cs
    rw [char_toLower_toUpper, h c (List.mem_cons_self _ _)]
    congr 1
    exact (List.map_congr_left (fun a ha => h a (List.mem_cons_of_mem _ ha))).trans
      (List.map_id cs)

theorem titleKeyTokens_titleCase (T : List (List Char)) (hT : ∀ t ∈ T, TokGood t) :
    titleKeyTokens (titleCaseOf T) = T := by
  unfold titleKeyTokens titleCaseOf
  have h1 : lowerL (interSp (T.map capToken)) = interSp T := by
    rw [lowerL_interSp, List.map_map]
    congr 1
    exact (List.map_congr_left (fun t ht =>
      capToken_lower t (fun c hc => ((hT t ht).2.1 c hc).1))).trans (List.map_id T)
  rw [h1, splitCh_interSp T (fun t ht =>
    ⟨(hT t ht).1, fun hsp => ((hT t ht).2.1 ' ' hsp).2 rfl⟩)]
  have h2 : T.map procToken = T := by
    refine (List.map_congr_left (fun t ht => ?_)).trans (List.map_id T)
    obtain ⟨_, _, hsp, hod, hnz⟩ := hT t ht
    simp [procToken, hsp, hod, hnz]
  rw [h2]
  rw [List.filter_eq_self.mpr (fun t ht => decide_eq_true (hT t ht).1)]

theorem alias_values_fixed : ∀ p ∈ aliasTable, normalizeTitleL p.2 = p.2 := by decide

theorem normalizeTitleL_idem (cs : List Char) :
    normalizeTitleL (normalizeTitleL cs) = normalizeTitleL cs := by
  cases h : assocLookup aliasTable (titleKey cs) with
  | some v =>
    have hm := assocLookup_some_key _ _ _ h
    have hfix := alias_values_fixed _ hm
    have h1 : normalizeTitleL cs = v := by simp [normalizeTitleL, h]
    rw [h1]
    exact hfix
  | none =>
    have h1 : normalizeTitleL cs = titleCaseOf (titleKeyTokens cs) := by
      simp [normalizeTitleL, h]
    rw [h1]
    have hrt := titleKeyTokens_titleCase (titleKeyTokens cs) (titleKeyTokens_good cs)
    unfold normalizeTitleL
    rw [show titleKey (titleCaseOf (titleKeyTokens cs)) = titleKey cs by
      unfold titleKey; rw [hrt]]
    rw [h, hrt]

/-- C5: normalize_title is idempotent: applying it twice gives the same
result as applying it once, for every string; it is a total, deterministic
function from strings to strings by construction. -/
theorem c5_normalize_title_idempotent (s : String) :
    normalize_title (normalize_title s) = normalize_title s := by
  show (⟨normalizeTitleL (normalizeTitleL s.data)⟩ : String) = ⟨normalizeTitleL s.data⟩
  exact congrArg String.mk (normalizeTitleL_idem s.data)

/-! ### Event types and the classifier (section 4.2) -/

/-- Modelled from the spec: the fixed event-type enumeration (section 3). -/
inductive EventType where
  | lecture : EventType
  | assignment : EventType
  | exam : EventType
  | quiz : EventType
  | lab : EventType
  | other : EventType
deriving DecidableEq

/-- Modelled from the spec: the classification keyword table in its fixed
priority order (section 4.2); configurable data, the documented example
configuration is modelled. -/
def keywordTable : List (EventType × List (List Char)) :=
  [(EventType.exam, ["final".data, "midterm".data, "exam".data]),
   (EventType.quiz, ["quiz".data]),
   (EventType.assignment,
     ["assignment".data, "homework".data, "problem set".data, "project due".data]),
   (EventType.lab, ["lab".data]),
   (EventType.lecture, ["lecture".data, "class".data])]

/-- Is the first list a prefix of the second. -/
def isPrefixL : List Char → List Char → Bool
  | [], _ => true
  | _ :: _, [] => false
  | a :: as, b :: bs => (a == b) && isPrefixL as bs

/-- Is the first list a contiguous substring of the second. -/
def isInfixL : List Char → List Char → Bool
  | needle, [] => needle.isEmpty
  | needle, c :: rest => isPrefixL needle (c :: rest) || isInfixL needle rest

/-- First matching rule of the keyword table on one text field. -/
def firstMatch : List (EventType × List (List Char)) → List Char → Option EventType
  | [], _ => none
  | (ty, kws) :: rest, text =>
    if kws.any (fun kw => isInfixL kw text) then some ty else firstMatch rest text

/-- Modelled from the spec: classify (section 4.2): keyword match on
type_hint first, then title, then description; the first matching rule wins
and the absence of any signal yields other; total, never fails. -/
def classify (type_hint : Option String) (title : String) (descr : Option String) :
    EventType :=
  match type_hint.bind (fun s => firstMatch keywordTable (lowerL s.data)) with
  | some ty => ty
  | none =>
    match firstMatch keywordTable (lowerL title.data) with
    | some ty => ty
    | none =>
      match descr.bind (fun s => firstMatch keywordTable (lowerL s.data)) with
      | some ty => ty
      | none => EventType.other

/-! ### Dates, the term anchor and the resolver (section 4.3) -/

/-- Parse a non-empty all-digit token into a number. -/
def digitsToNat (t : List Char) : Option Nat :=
  if t ≠ [] ∧ t.all isDigitB then
    some (t.foldl (fun a c => a * 10 + (c.toNat - 48)) 0)
  else none

/-- Parse an optionally negated digit token. -/
def intOfTok (t : List Char) : Option Int :=
  match t with
  | '-' :: rest => (digitsToNat rest).map (fun n => -(n : Int))
  | _ => (digitsToNat t).map (fun n => (n : Int))

/-- Modelled from the spec: the single internal representation of a calendar
date is an abstract day index; a calendar date y-m-d is encoded injectively
into it, and a weekday is a day index modulo 7. -/
def dateCode (y m d : Nat) : Nat := (y * 12 + (m - 1)) * 31 + (d - 1)

/-- Parse one token as an absolute date, accepting y-m-d and m/d/y; both
accepted formats normalize to the same internal representation. -/
def parseAbsTok (t : List Char) : Option Nat :=
  match splitCh '-' t with
  | [ys, ms, ds] =>
    match digitsToNat ys, digitsToNat ms, digitsToNat ds with
    | some y, some m, some d =>
      if 1 ≤ m ∧ m ≤ 12 ∧ 1 ≤ d ∧ d ≤ 31 then some (dateCode y m d) else none
    | _, _, _ => none
  | _ =>
    match splitCh '/' t with
    | [ms, ds, ys] =>
      match digitsToNat ys, digitsToNat ms, digitsToNat ds with
      | some y, some m, some d =>
        if 1 ≤ m ∧ m ≤ 12 ∧ 1 ≤ d ∧ d ≤ 31 then some (dateCode y m d) else none
      | _, _, _ => none
    | _ => none

/-- Absolute date from a tokenized hint: a single date token. -/
def parseAbsTokens : List (List Char) → Option Nat
  | [t] => parseAbsTok t
  | _ => none

/-- A relative hint Week N or Week N weekday-name, tokenized. -/
def parseRelTokens : List (List Char) → Option (Int × Option (List Char))
  | [w, num] => if w = "week".data then (intOfTok num).map (fun n => (n, none)) else none
  | [w, num, wd] =>
    if w = "week".data then (intOfTok num).map (fun n => (n, some wd)) else none
  | _ => none

/-- Modelled from the spec: TermAnchor (section 3): the term start date, a
mapping from weekday names to weekday indices, and break ranges excluded
from week counting. -/
structure TermAnchor where
  term_start_date : Nat
  weekday_calendar : List (List Char × Fin 7)
  breaks : List (Nat × Nat)

/-- Modelled from the spec: a sane anchor maps some name to every weekday
index; anything less is treated as an invalid anchor. -/
def anchorValid (a : TermAnchor) : Bool :=
  (List.range 7).all (fun i => a.weekday_calendar.any (fun p => p.2.val == i))

/-- Modelled from the spec: the configured term-length bound (in weeks) for
sane relative hints; a configurable constant. -/
def termLengthWeeks : Nat := 16

/-- Is a day inside one of the declared break ranges. -/
def inBreaks (breaks : List (Nat × Nat)) (d : Nat) : Bool :=
  breaks.any (fun p => decide (p.1 ≤ d ∧ d ≤ p.2))

/-- Advance week by week until a day outside every break is found; the fuel
bounds the search and the resolver gives up conservatively without it. -/
def seekDay (breaks : List (Nat × Nat)) : Nat → Nat → Option Nat
  | 0, _ => none
  | fuel + 1, d => if inBreaks breaks d then seekDay breaks fuel (d + 7) else some d

/-- Modelled from the spec: resolution of a date hint (section 4.3):
absolute dates are used directly; a Week N phrase needs a present and valid
anchor and a sane week number (not negative, not beyond the configured term
length), and lands on term start plus N weeks moved to the hinted weekday,
skipping breaks; everything else resolves conservatively to no date with the
unresolved marker set. Returns the date and that marker. -/
def resolveDate (anchor : Option TermAnchor) (hint : List Char) : Option Nat × Bool :=
  let toks := splitCh ' ' (lowerL hint)
  match parseAbsTokens toks with
  | some d => (some d, false)
  | none =>
    match parseRelTokens toks with
    | some (n, wdName) =>
      match anchor with
      | none => (none, true)
      | some a =>
        if anchorValid a = false then (none, true)
        else if n < 0 ∨ n > (termLengthWeeks : Int) then (none, true)
        else
          let base := a.term_start_date + 7 * n.toNat
          match wdName with
          | none =>
            match seekDay a.breaks 54 base with
            | some d => (some d, false)
            | none => (none, true)
          | some nm =>
            match assocLookup a.weekday_calendar nm with
            | none => (none, true)
            | some w =>
              let cand := base + ((7 + w.val - base % 7) % 7)
              match seekDay a.breaks 54 cand with
              | some d => (some d, false)
              | none => (none, true)
    | none => (none, true)

/-- Parse a clock token hh:mm into minutes, conservatively. -/
def parseTimeTok (t : List Char) : Option Nat :=
  match splitCh ':' t with
  | [hs, ms] =>
    match digitsToNat hs, digitsToNat ms with
    | some h, some m => if h < 24 ∧ m < 60 then some (60 * h + m) else none
    | _, _ => none
  | _ => none

/-- Modelled from the spec: best-effort conservative time parsing; a
malformed token yields no time, never a guessed one. -/
def resolveTime (hint : Option String) : Option Nat :=
  match hint with
  | none => none
  | some s =>
    match splitCh ' ' (lowerL s.data) with
    | [t] => parseTimeTok t
    | _ => none

/-- Modelled from the spec: a recurrence rule: a weekday set and an optional
until date (an unresolvable until keeps the weekday set with no until
date, section 4.3). -/
structure RecurrenceRule where
  byday : Finset (Fin 7)
  untilDate : Option Nat
deriving DecidableEq

/-- The standard weekday names used by the recurrence parser, Monday first. -/
def stdWeekdayNames : List (List Char × Fin 7) :=
  [("monday".data, 0), ("tuesday".data, 1), ("wednesday".data, 2),
   ("thursday".data, 3), ("friday".data, 4), ("saturday".data, 5),
   ("sunday".data, 6)]

/-- Parse weekday tokens separated by the word and into a weekday set. -/
def parseDayToks : List (List Char) → Option (Finset (Fin 7))
  | [] => some ∅
  | t :: rest =>
    if t = "and".data then parseDayToks rest
    else
      match assocLookup stdWeekdayNames t with
      | some w => (parseDayToks rest).map (insert w)
      | none => none

/-- Modelled from the spec: parse a recurrence hint of the shape every
weekday [and weekday ...] [until date]; an unparseable until keeps the
weekday set with no until date (section 4.3). -/
def parseRecurrenceToks (toks : List (List Char)) : Option RecurrenceRule :=
  match toks with
  | [] => none
  | w :: rest =>
    if w = "every".data then
      let dayToks := rest.takeWhile (fun t => t ≠ "until".data)
      let restToks := rest.dropWhile (fun t => t ≠ "until".data)
      match parseDayToks dayToks with
      | none => none
      | some days =>
        if days = ∅ then none
        else
          let u := match restToks with
            | [_, t] => parseAbsTok t
            | _ => none
          some { byday := days, untilDate := u }
    else none

/-- Modelled from the spec: recurrence resolution from the free-text hint;
single-occurrence events have no recurrence. -/
def resolveRecurrence (hint : Option String) : Option RecurrenceRule :=
  match hint with
  | none => none
  | some s => parseRecurrenceToks (splitCh ' ' (lowerL s.data))

/-- Modelled from the spec: extract the first percentage from free weight
text (fuel-bounded scan of digit runs followed by a percent sign); malformed
or absent weights give no value. -/
def firstPercentAux : Nat → List Char → Option Nat
  | 0, _ => none
  | _, [] => none
  | fuel + 1, c :: rest =>
    if isDigitB c then
      match rest.dropWhile isDigitB with
      | '%' :: _ => digitsToNat (c :: rest.takeWhile isDigitB)
      | after => firstPercentAux fuel after
    else firstPercentAux fuel rest

/-- Weight extraction from the optional free-text hint. -/
def parseWeight (hint : Option String) : Option Nat :=
  match hint with
  | none => none
  | some s => firstPercentAux s.data.length s.data

/-! ### Description sentences (sections 3 and 4.4) -/

/-- Sentence-boundary characters. -/
def isSentenceEnd (c : Char) : Bool := c == '.' || c == '!' || c == '?'

/-- Split a character list wherever the predicate holds, dropping empty
pieces. -/
def splitPredAux (p : Char → Bool) : List Char → List Char → List (List Char)
  | [], acc => if acc = [] then [] else [acc.reverse]
  | c :: cs, acc =>
    if p c then
      if acc = [] then splitPredAux p cs []
      else acc.reverse :: splitPredAux p cs []
    else splitPredAux p cs (c :: acc)

/-- Split a character list wherever the predicate holds. -/
def splitPred (p : Char → Bool) (cs : List Char) : List (List Char) := splitPredAux p cs []

/-- Trim spaces from both ends of a piece. -/
def trimSpaces (t : List Char) : List Char :=
  ((t.dropWhile (fun c => c == ' ')).reverse.dropWhile (fun c => c == ' ')).reverse

/-- The case-insensitive comparison key of a sentence. -/
def ciKey (s : String) : List Char := lowerL s.data

/-- De-duplicate sentences case-insensitively against the accumulated seen
keys, keeping first-seen order. -/
def dedupCIAux : List String → List (List Char) → List String
  | [], _ => []
  | s :: rest, seen =>
    if seen.contains (ciKey s) then dedupCIAux rest seen
    else s :: dedupCIAux rest (ciKey s :: seen)

/-- Modelled from the spec: split a description on sentence boundaries, trim
the pieces, and de-duplicate case-insensitively within the record, keeping
insertion order (section 3). -/
def splitSentences (s : String) : List String :=
  dedupCIAux
    ((((splitPred isSentenceEnd s.data).map trimSpaces).filter
        (fun t => t ≠ [])).map (fun t => (⟨t⟩ : String)))
    []

/-- Modelled from the spec: append the sentences of one more member to the
accumulated ones, case-insensitively de-duplicating against the accumulated
set and preserving first-seen order (section 4.4 step 2). -/
def appendNewSentences (acc : List String) : List String → List String
  | [] => acc
  | s :: rest =>
    if acc.any (fun t => ciKey t == ciKey s) then appendNewSentences acc rest
    else appendNewSentences (acc ++ [s]) rest

/-! ### Raw and normalized events (section 3) -/

/-- Modelled from the spec: RawEvent (section 3); the title is optional so
that the missing-required-field caller error of section 7 is representable
(it degrades to an empty-string fallback instead of rejecting the record). -/
structure RawEvent where
  title : Option String
  date_hint : Option String
  time_hint : Option String
  type_hint : Option String
  description : Option String
  weight_hint : Option String
  recurrence_hint : Option String
deriving DecidableEq

/-- Modelled from the spec: NormalizedEvent (section 3), extended with the
original title and the alias flag, which the conservative merge gate of
section 4.4 step 3 consults. -/
structure NormalizedEvent where
  canonical_title : String
  event_type : EventType
  date : Option Nat
  time : Option Nat
  description_sentences : List String
  weight_percent : Option Nat
  recurrence : Option RecurrenceRule
  unresolved : Bool
  orig_title : String
  alias_applied : Bool
deriving DecidableEq

/-- Modelled from the spec: the pure per-record transform from RawEvent to
NormalizedEvent (sections 4.1 to 4.3; lifecycle in section 3). The
unresolved marker is true iff a date hint existed and did not resolve. -/
def normalizeEvent (anchor : Option TermAnchor) (r : RawEvent) : NormalizedEvent :=
  let t0 := r.title.getD ""
  let dres := match r.date_hint with
    | none => ((none : Option Nat), false)
    | some h => resolveDate anchor h.data
  { canonical_title := normalize_title t0
    event_type := classify r.type_hint t0 r.description
    date := dres.1
    time := resolveTime r.time_hint
    description_sentences := match r.description with
      | none => []
      | some s => splitSentences s
    weight_percent := parseWeight r.weight_hint
    recurrence := resolveRecurrence r.recurrence_hint
    unresolved := dres.2
    orig_title := t0
    alias_applied := aliasApplied t0 }

/-! ### The conservative merge engine (section 4.4) -/

/-- Modelled from the spec: CanonicalEvent (section 3): the NormalizedEvent
shape plus source_count and conflicts; the members field is verification
provenance recording exactly the NormalizedEvents folded into this event (in
fold order), from which the gate also reads original titles and alias
flags. -/
structure CanonicalEvent where
  canonical_title : String
  event_type : EventType
  date : Option Nat
  time : Option Nat
  description_sentences : List String
  weight_percent : Option Nat
  recurrence : Option RecurrenceRule
  unresolved : Bool
  source_count : Nat
  conflicts : List String
  members : List NormalizedEvent
deriving DecidableEq

/-- Digit characters of a number, most significant first (fuel-based). -/
def natDigitsAux : Nat → Nat → List Char
  | 0, _ => []
  | fuel + 1, n =>
    if n < 10 then [Char.ofNat (48 + n)]
    else natDigitsAux fuel (n / 10) ++ [Char.ofNat (48 + n % 10)]

/-- Decimal rendering of a number. -/
def natToStr (n : Nat) : String := ⟨natDigitsAux (n + 1) n⟩

/-- The conflict note recorded when two members disagree on weight, naming
the kept and the other value. -/
def weightNote (kept other : Nat) : String :=
  ⟨"weight conflict: kept ".data ++ (natToStr kept).data ++
   " vs ".data ++ (natToStr other).data⟩

/-- The conflict note recorded when two members disagree on time. -/
def timeNote (kept other : Nat) : String :=
  ⟨"time conflict: kept ".data ++ (natToStr kept).data ++
   " vs ".data ++ (natToStr other).data⟩

/-- The conflict note recorded when two until dates disagree beyond the
tolerance. -/
def untilNote (kept other : Nat) : String :=
  ⟨"until conflict: kept ".data ++ (natToStr kept).data ++
   " vs ".data ++ (natToStr other).data⟩

/-- Modelled from the spec: the tolerance beyond which two until dates
produce a conflict note; a configurable constant (section 9). -/
def untilTol : Nat := 1

/-- Modelled from the spec: the distance at which two weights count as
numerically far apart for the merge gate; a configurable constant
(section 9). -/
def weightFarTol : Nat := 30

/-- Keep the non-null one, or the maximum, of two optional numbers; the
tie-break shape shared by weight and until merging. -/
def maxOpt : Option Nat → Option Nat → Option Nat
  | none, w => w
  | some a, none => some a
  | some a, some b => some (max a b)

/-- The maximum non-null value of a list of optional numbers. -/
def maxNonNull (l : List (Option Nat)) : Option Nat := l.foldl maxOpt none

/-- Modelled from the spec: merge two recurrence fields: union the weekday
sets, keep the latest non-null until, and report a conflict note when two
non-null until dates disagree beyond the tolerance (section 4.4 step 1). -/
def mergeRecurrence : Option RecurrenceRule → Option RecurrenceRule →
    Option RecurrenceRule × Option String
  | none, r => (r, none)
  | some a, none => (some a, none)
  | some a, some b =>
    (some { byday := a.byday ∪ b.byday, untilDate := maxOpt a.untilDate b.untilDate },
     match a.untilDate, b.untilDate with
     | some x, some y =>
       if max x y - min x y > untilTol then some (untilNote (max x y) (min x y)) else none
     | _, _ => none)

/-- Modelled from the spec: a first (or singleton) group member passes
through with source_count one and no conflicts (section 4.4 step 4). -/
def initCanonical (m : NormalizedEvent) : CanonicalEvent :=
  { canonical_title := m.canonical_title
    event_type := m.event_type
    date := m.date
    time := m.time
    description_sentences := m.description_sentences
    weight_percent := m.weight_percent
    recurrence := m.recurrence
    unresolved := m.unresolved
    source_count := 1
    conflicts := []
    members := [m] }

/-- Modelled from the spec: fold one more member into a canonical event
(section 4.4 step 2): the date is stable within a group; descriptions are
appended with case-insensitive de-duplication; the weight keeps the maximum
non-null value and notes disagreements of non-null values; the time keeps
the first non-null value and notes later disagreements; recurrences are
merged; source_count grows by one; the unresolved markers are joined. -/
def foldMember (c : CanonicalEvent) (m : NormalizedEvent) : CanonicalEvent :=
  let wpair : Option Nat × Option String :=
    match c.weight_percent, m.weight_percent with
    | none, w => (w, none)
    | some a, none => (some a, none)
    | some a, some b =>
      (some (max a b), if a ≠ b then some (weightNote (max a b) (min a b)) else none)
  let tpair : Option Nat × Option String :=
    match c.time, m.time with
    | none, t => (t, none)
    | some a, none => (some a, none)
    | some a, some b => (some a, if a ≠ b then some (timeNote a b) else none)
  let rpair := mergeRecurrence c.recurrence m.recurrence
  { canonical_title := c.canonical_title
    event_type := c.event_type
    date := c.date
    time := tpair.1
    description_sentences := appendNewSentences c.description_sentences m.description_sentences
    weight_percent := wpair.1
    recurrence := rpair.1
    unresolved := c.unresolved || m.unresolved
    source_count := c.source_count + 1
    conflicts := c.conflicts ++ (wpair.2.toList ++ tpair.2.toList ++ rpair.2.toList)
    members := c.members ++ [m] }

/-- Modelled from the spec: the conservative merge gate (section 4.4 step
3): a member is kept apart from an equal-fingerprint canonical event when
the fingerprint is date-keyed, both weights are non-null and numerically far
apart, both titles were alias-normalized, and the original titles were not
identical before normalization. -/
def gateTrigger (c : CanonicalEvent) (m : NormalizedEvent) : Bool :=
  c.date.isSome &&
  (match c.weight_percent, m.weight_percent with
   | some a, some b => decide (max a b - min a b ≥ weightFarTol)
   | _, _ => false) &&
  m.alias_applied && c.members.any (fun x => x.alias_applied) &&
  !(c.members.any (fun x => x.orig_title == m.orig_title))

/-- Fold one member into the first canonical event of the group the gate
does not keep it apart from, or start a new one at the end. -/
def insertMember : List CanonicalEvent → NormalizedEvent → List CanonicalEvent
  | [], m => [initCanonical m]
  | c :: cs, m =>
    if gateTrigger c m then c :: insertMember cs m
    else foldMember c m :: cs

/-- Append occurrence indices to the titles of a split group (section 4.4
step 3). -/
def retitleAux : Nat → List CanonicalEvent → List CanonicalEvent
  | _, [] => []
  | i, c :: cs =>
    { c with canonical_title :=
        c.canonical_title ++ " (" ++ natToStr i ++ ")" } :: retitleAux (i + 1) cs

/-- Disambiguate split events by an appended occurrence index; an unsplit
group keeps its title. -/
def retitle (cs : List CanonicalEvent) : List CanonicalEvent :=
  match cs with
  | [] => []
  | [c] => [c]
  | _ => retitleAux 1 cs

/-- Modelled from the spec: fold one fingerprint group into its canonical
events (section 4.4 steps 2 to 4). -/
def mergeGroup (g : List NormalizedEvent) : List CanonicalEvent :=
  retitle (g.foldl insertMember [])

/-- Modelled from the spec: the fingerprint (section 3): canonical title,
event type, and the date when present, else the recurrence signature; the
recurrence signature is the until date of the recurrence (if any), so that
records differing only in their weekday sets are merge candidates, as the
recurrence-union example of section 8 requires. -/
def fingerprint (n : NormalizedEvent) :
    String × EventType × (Nat ⊕ Option (Option Nat)) :=
  (n.canonical_title, n.event_type,
   match n.date with
   | some d => Sum.inl d
   | none => Sum.inr (n.recurrence.map (fun rr => rr.untilDate)))

/-- Group the normalized events by equal fingerprint, in insertion order of
each group head; the fuel is the list length at the top call. -/
def groupByFpF : Nat → List NormalizedEvent → List (List NormalizedEvent)
  | 0, _ => []
  | _ + 1, [] => []
  | fuel + 1, n :: ns =>
    (n :: ns.filter (fun m => decide (fingerprint m = fingerprint n))) ::
      groupByFpF fuel (ns.filter (fun m => decide (fingerprint m ≠ fingerprint n)))

/-- Modelled from the spec: fingerprint grouping, group order being the
insertion order of each first member (section 4.4 step 1). -/
def groupByFp (ns : List NormalizedEvent) : List (List NormalizedEvent) :=
  groupByFpF ns.length ns

/-- Lexicographic order on character lists. -/
def leChars : List Char → List Char → Bool
  | [], _ => true
  | _ :: _, [] => false
  | a :: as, b :: bs => if a = b then leChars as bs else decide (a < b)

/-- Modelled from the spec: the total output order (section 3): date
ascending with null dates last, ties broken by canonical title ascending. -/
def canonLE (a b : CanonicalEvent) : Bool :=
  match a.date, b.date with
  | some d1, some d2 =>
    if d1 = d2 then leChars a.canonical_title.data b.canonical_title.data
    else decide (d1 < d2)
  | some _, none => true
  | none, some _ => false
  | none, none => leChars a.canonical_title.data b.canonical_title.data

/-- The output order as a relation. -/
def canonRel (a b : CanonicalEvent) : Prop := canonLE a b = true

instance : DecidableRel canonRel := fun a b =>
  inferInstanceAs (Decidable (canonLE a b = true))

theorem leChars_total (x y : List Char) : leChars x y = true ∨ leChars y x = true := by
  induction x generalizing y with
  | nil => exact Or.inl rfl
  | cons a as ih =>
    cases y with
    | nil => exact Or.inr rfl
    | cons b bs =>
      by_cases hab : a = b
      · subst hab
        rcases ih bs with h | h
        · exact Or.inl (by simpa [leChars] using h)
        · exact Or.inr (by simpa [leChars] using h)
      · rcases lt_or_gt_of_ne hab with h | h
        · exact Or.inl (by simp [leChars, hab, h])
        · exact Or.inr (by simp [leChars, Ne.symm hab, h])

theorem leChars_trans (x y z : List Char) (h1 : leChars x y = true)
    (h2 : leChars y z = true) : leChars x z = true := by
  induction x generalizing y z with
  | nil => rfl
  | cons a as ih =>
    cases y with
    | nil => simp [leChars] at h1
    | cons b bs =>
      cases z with
      | nil => simp [leChars] at h2
      | cons c cs =>
        by_cases hab : a = b
        · subst hab
          rw [show leChars (a :: as) (a :: bs) = leChars as bs by simp [leChars]] at h1
          by_cases hbc : a = c
          · subst hbc
            rw [show leChars (a :: bs) (a :: cs) = leChars bs cs by simp [leChars]] at h2
            simpa [leChars] using ih bs cs h1 h2
          · rw [show leChars (a :: bs) (c :: cs) = decide (a < c) by simp [leChars, hbc]] at h2
            simp [leChars, hbc]
            exact of_decide_eq_true h2
        · rw [show leChars (a :: as) (b :: bs) = decide (a < b) by simp [leChars, hab]] at h1
          have hab2 : a < b := of_decide_eq_true h1
          by_cases hbc : b = c
          · subst hbc
            simp [leChars, hab]
            exact hab2
          · rw [show leChars (b :: bs) (c :: cs) = decide (b < c) by simp [leChars, hbc]] at h2
            have hbc2 : b < c := of_decide_eq_true h2
            have hac : a < c := lt_trans hab2 hbc2
            simp [leChars, ne_of_lt hac]
            exact hac

instance : IsTotal CanonicalEvent canonRel where
  total a b := by
    unfold canonRel canonLE
    cases hda : a.date with
    | none =>
      cases hdb : b.date with
      | none => exact leChars_total _ _
      | some d2 => exact Or.inr rfl
    | some d1 =>
      cases hdb : b.date with
      | none => exact Or.inl rfl
      | some d2 =>
        by_cases h : d1 = d2
        · subst h
          rcases leChars_total a.canonical_title.data b.canonical_title.data with h | h
          · exact Or.inl (by simpa using h)
          · exact Or.inr (by simpa using h)
        · rcases lt_or_gt_of_ne h with hlt | hlt
          · exact Or.inl (by simp [h, hlt])
          · exact Or.inr (by simp [Ne.symm h, hlt])

instance : IsTrans CanonicalEvent canonRel where
  trans a b c h1 h2 := by
    unfold canonRel canonLE at h1 h2 ⊢
    revert h1 h2
    cases a.date with
    | none =>
      cases b.date with
      | none =>
        cases c.date with
        | none => intro h1 h2; exact leChars_trans _ _ _ h1 h2
        | some d3 => intro h1 h2; simp at h2
      | some d2 => intro h1 h2; simp at h1
    | some d1 =>
      cases b.date with
      | none =>
        cases c.date with
        | none => intro h1 h2; rfl
        | some d3 => intro h1 h2; simp at h2
      | some d2 =>
        cases c.date with
        | none => intro h1 h2; rfl
        | some d3 =>
          intro h1 h2
          have h1a : (if d1 = d2 then leChars a.canonical_title.data b.canonical_title.data
              else decide (d1 < d2)) = true := h1
          have h2a : (if d2 = d3 then leChars b.canonical_title.data c.canonical_title.data
              else decide (d2 < d3)) = true := h2
          show (if d1 = d3 then leChars a.canonical_title.data c.canonical_title.data
              else decide (d1 < d3)) = true
          by_cases h12 : d1 = d2
          · subst h12
            rw [if_pos rfl] at h1a
            by_cases h23 : d1 = d3
            · subst h23
              rw [if_pos rfl] at h2a
              rw [if_pos rfl]
              exact leChars_trans _ _ _ h1a h2a
            · rw [if_neg h23] at h2a
              rw [if_neg h23]
              exact h2a
          · rw [if_neg h12] at h1a
            have h12l : d1 < d2 := of_decide_eq_true h1a
            by_cases h23 : d2 = d3
            · subst h23
              rw [if_neg h12]
              exact h1a
            · rw [if_neg h23] at h2a
              have h23l : d2 < d3 := of_decide_eq_true h2a
              have h13 : d1 < d3 := lt_trans h12l h23l
              rw [if_neg (ne_of_lt h13)]
              exact decide_eq_true h13

/-- Modelled from the spec: the conservative merge engine (section 4.4):
fingerprint grouping, per-group folding guarded by the gate, and the final
total-order sort of step 5. -/
def mergeEngine (ns : List NormalizedEvent) : List CanonicalEvent :=
  List.insertionSort canonRel ((groupByFp ns).map mergeGroup).flatten

/-- Modelled from the spec: the full pipeline (section 2): the stateless
per-record normalization followed by the merge over the whole batch. -/
def pipeline (anchor : Option TermAnchor) (raws : List RawEvent) : List CanonicalEvent :=
  mergeEngine (raws.map (normalizeEvent anchor))

/-! ### Provenance and invariants of the merge fold -/

/-- All members recorded across a list of canonical events, in order. -/
def membersOf (cs : List CanonicalEvent) : List NormalizedEvent :=
  (cs.map CanonicalEvent.members).flatten

/-- The weekday set of an optional recurrence. -/
def recBydays : Option RecurrenceRule → Finset (Fin 7)
  | none => ∅
  | some rr => rr.byday

/-- The until date of an optional recurrence. -/
def recUntil : Option RecurrenceRule → Option Nat
  | none => none
  | some rr => rr.untilDate

/-- The union of the weekday sets of a member list. -/
def bydayUnionOf (ms : List NormalizedEvent) : Finset (Fin 7) :=
  ms.foldl (fun s m => s ∪ recBydays m.recurrence) ∅

/-- A pair of canonical events that agree on every field except possibly the
canonical title (retitling after a gate split changes only the title). -/
def SameButTitle (x y : CanonicalEvent) : Prop :=
  x.event_type = y.event_type ∧ x.date = y.date ∧ x.time = y.time ∧
  x.description_sentences = y.description_sentences ∧
  x.weight_percent = y.weight_percent ∧ x.recurrence = y.recurrence ∧
  x.unresolved = y.unresolved ∧ x.source_count = y.source_count ∧
  x.conflicts = y.conflicts ∧ x.members = y.members

/-- The weight-conflict reporting property: whenever two members carry
distinct non-null weights, some conflict note naming two distinct recorded
weights is present. -/
def WeightNoteProp (c : CanonicalEvent) : Prop :=
  ∀ w1 w2 : Nat, some w1 ∈ c.members.map NormalizedEvent.weight_percent →
    some w2 ∈ c.members.map NormalizedEvent.weight_percent → w1 ≠ w2 →
    ∃ a b : Nat, a ≠ b ∧ some a ∈ c.members.map NormalizedEvent.weight_percent ∧
      some b ∈ c.members.map NormalizedEvent.weight_percent ∧
      weightNote (max a b) (min a b) ∈ c.conflicts

/-- The title-free invariant every canonical event of a folded group
satisfies: its field values are the documented folds of its members. -/
def CoreInv (c : CanonicalEvent) : Prop :=
  (∃ m0 ms, c.members = m0 :: ms ∧ c.date = m0.date ∧ c.event_type = m0.event_type) ∧
  c.source_count = c.members.length ∧
  c.unresolved = c.members.any NormalizedEvent.unresolved ∧
  c.weight_percent = maxNonNull (c.members.map NormalizedEvent.weight_percent) ∧
  recBydays c.recurrence = bydayUnionOf c.members ∧
  recUntil c.recurrence = maxNonNull (c.members.map (fun m => recUntil m.recurrence)) ∧
  WeightNoteProp c

/-- Before retitling, a folded canonical event also carries its head
member's canonical title. -/
def TitleInv (c : CanonicalEvent) : Prop :=
  ∃ m0 ms, c.members = m0 :: ms ∧ c.canonical_title = m0.canonical_title

theorem maxOpt_none_iff (x y : Option Nat) : maxOpt x y = none ↔ x = none ∧ y = none := by
  cases x <;> cases y <;> simp [maxOpt]

theorem maxNonNull_eq_none (l : List (Option Nat)) :
    maxNonNull l = none ↔ ∀ o ∈ l, o = none := by
  have hgen : ∀ (acc : Option Nat), l.foldl maxOpt acc = none ↔
      acc = none ∧ ∀ o ∈ l, o = none := by
    induction l with
    | nil => intro acc; simp
    | cons o l ih =>
      intro acc
      rw [List.foldl_cons, ih (maxOpt acc o), maxOpt_none_iff]
      constructor
      · rintro ⟨⟨h1, h2⟩, h3⟩
        exact ⟨h1, fun o' ho' => by
          rcases List.mem_cons.mp ho' with h | h
          · rw [h]; exact h2
          · exact h3 o' h⟩
      · rintro ⟨h1, h2⟩
        exact ⟨⟨h1, h2 o (List.mem_cons_self _ _)⟩,
          fun o' ho' => h2 o' (List.mem_cons_of_mem _ ho')⟩
  rw [show maxNonNull l = l.foldl maxOpt none from rfl, hgen]
  simp

theorem foldl_maxOpt_some (l : List (Option Nat)) (a : Nat) :
    ∀ acc, l.foldl maxOpt acc = some a → some a ∈ l ∨ acc = some a := by
  induction l with
  | nil => intro acc h1; exact Or.inr h1
  | cons o l ih =>
    intro acc h1
    rw [List.foldl_cons] at h1
    rcases ih (maxOpt acc o) h1 with h2 | h2
    · exact Or.inl (List.mem_cons_of_mem _ h2)
    · cases acc with
      | none =>
        rw [show maxOpt none o = o from rfl] at h2
        exact Or.inl (by rw [h2]; exact List.mem_cons_self _ _)
      | some x =>
        cases o with
        | none => exact Or.inr h2
        | some y =>
          have hxy : max x y = a := by
            have h3 : (some (max x y) : Option Nat) = some a := h2
            injection h3
          rcases max_choice x y with hm | hm
          · refine Or.inr ?_
            rw [← hxy, hm]
          · refine Or.inl ?_
            rw [← hxy, hm]
            exact List.mem_cons_self _ _

theorem maxNonNull_mem (l : List (Option Nat)) (a : Nat) (h : maxNonNull l = some a) :
    some a ∈ l := by
  rcases foldl_maxOpt_some l a none h with h1 | h1
  · exact h1
  · exact absurd h1 (by simp)

theorem foldMember_weight (c : CanonicalEvent) (m : NormalizedEvent) :
    (foldMember c m).weight_percent = maxOpt c.weight_percent m.weight_percent := by
  unfold foldMember maxOpt
  cases c.weight_percent <;> cases m.weight_percent <;> rfl

theorem foldMember_recurrence_byday (c : CanonicalEvent) (m : NormalizedEvent) :
    recBydays (foldMember c m).recurrence =
      recBydays c.recurrence ∪ recBydays m.recurrence := by
  show recBydays (mergeRecurrence c.recurrence m.recurrence).1 = _
  cases c.recurrence with
  | none => simp [mergeRecurrence, recBydays]
  | some a =>
    cases m.recurrence with
    | none => simp [mergeRecurrence, recBydays]
    | some b => simp [mergeRecurrence, recBydays]

theorem foldMember_recurrence_until (c : CanonicalEvent) (m : NormalizedEvent) :
    recUntil (foldMember c m).recurrence =
      maxOpt (recUntil c.recurrence) (recUntil m.recurrence) := by
  show recUntil (mergeRecurrence c.recurrence m.recurrence).1 = _
  cases c.recurrence with
  | none => cases m.recurrence <;> rfl
  | some a =>
    cases m.recurrence with
    | none =>
      show a.untilDate = maxOpt a.untilDate none
      cases a.untilDate <;> rfl
    | some b => rfl

theorem bydayUnionOf_append_one (ms : List NormalizedEvent) (m : NormalizedEvent) :
    bydayUnionOf (ms ++ [m]) = bydayUnionOf ms ∪ recBydays m.recurrence := by
  unfold bydayUnionOf
  rw [List.foldl_append]
  rfl

theorem maxNonNull_append_one (l : List (Option Nat)) (w : Option Nat) :
    maxNonNull (l ++ [w]) = maxOpt (maxNonNull l) w := by
  unfold maxNonNull
  rw [List.foldl_append]
  rfl

theorem membersOf_cons (c : CanonicalEvent) (cs : List CanonicalEvent) :
    membersOf (c :: cs) = c.members ++ membersOf cs := rfl

theorem foldMember_members (c : CanonicalEvent) (m : NormalizedEvent) :
    (foldMember c m).members = c.members ++ [m] := rfl

theorem membersOf_insertMember (cs : List CanonicalEvent) (m : NormalizedEvent) :
    (membersOf (insertMember cs m)).Perm (m :: membersOf cs) := by
  induction cs with
  | nil => exact List.Perm.refl _
  | cons c cs ih =>
    show (membersOf (if gateTrigger c m = true then c :: insertMember cs m
        else foldMember c m :: cs)).Perm _
    by_cases hg : gateTrigger c m = true
    · rw [if_pos hg, membersOf_cons, membersOf_cons]
      exact (List.Perm.append_left c.members ih).trans List.perm_middle
    · rw [if_neg hg, membersOf_cons, foldMember_members, membersOf_cons]
      have h1 : (c.members ++ [m]) ++ membersOf cs = c.members ++ (m :: membersOf cs) := by
        simp
      rw [h1]
      exact List.perm_middle

theorem membersOf_foldl (g : List NormalizedEvent) :
    ∀ acc, (membersOf (g.foldl insertMember acc)).Perm (membersOf acc ++ g) := by
  induction g with
  | nil => intro acc; simp
  | cons m g ih =>
    intro acc
    rw [List.foldl_cons]
    have h1 := ih (insertMember acc m)
    have h2 : (membersOf (insertMember acc m) ++ g).Perm ((m :: membersOf acc) ++ g) :=
      List.Perm.append_right _ (membersOf_insertMember acc m)
    have h4 : (m :: (membersOf acc ++ g)).Perm (membersOf acc ++ m :: g) :=
      List.perm_middle.symm
    exact h1.trans (h2.trans h4)

theorem retitleAux_same (cs : List CanonicalEvent) :
    ∀ i, ∀ c' ∈ retitleAux i cs, ∃ c ∈ cs, SameButTitle c' c := by
  induction cs with
  | nil => intro i c' h; simp [retitleAux] at h
  | cons c cs ih =>
    intro i c' h
    rcases List.mem_cons.mp h with h1 | h1
    · refine ⟨c, List.mem_cons_self _ _, ?_⟩
      rw [h1]
      exact ⟨rfl, rfl, rfl, rfl, rfl, rfl, rfl, rfl, rfl, rfl⟩
    · obtain ⟨c0, hc0, hs⟩ := ih (i + 1) c' h1
      exact ⟨c0, List.mem_cons_of_mem _ hc0, hs⟩

theorem retitle_same (cs : List CanonicalEvent) :
    ∀ c' ∈ retitle cs, ∃ c ∈ cs, SameButTitle c' c := by
  intro c' h
  cases cs with
  | nil => simp [retitle] at h
  | cons c cs2 =>
    cases cs2 with
    | nil =>
      rw [show retitle [c] = [c] from rfl] at h
      rcases List.mem_cons.mp h with h1 | h1
      · refine ⟨c, List.mem_cons_self _ _, ?_⟩
        rw [h1]
        exact ⟨rfl, rfl, rfl, rfl, rfl, rfl, rfl, rfl, rfl, rfl⟩
      · simp at h1
    | cons c2 cs3 =>
      exact retitleAux_same (c :: c2 :: cs3) 1 c' h

theorem retitleAux_members_map (cs : List CanonicalEvent) :
    ∀ i, (retitleAux i cs).map CanonicalEvent.members = cs.map CanonicalEvent.members := by
  induction cs with
  | nil => intro i; rfl
  | cons c cs ih =>
    intro i
    show _ :: (retitleAux (i + 1) cs).map CanonicalEvent.members = _
    rw [ih (i + 1)]
    rfl

theorem membersOf_retitle (cs : List CanonicalEvent) :
    membersOf (retitle cs) = membersOf cs := by
  cases cs with
  | nil => rfl
  | cons c cs2 =>
    cases cs2 with
    | nil => rfl
    | cons c2 cs3 =>
      show membersOf (retitleAux 1 (c :: c2 :: cs3)) = _
      unfold membersOf
      rw [retitleAux_members_map]

theorem CoreInv_transfer (x y : CanonicalEvent) (hs : SameButTitle x y)
    (hy : CoreInv y) : CoreInv x := by
  obtain ⟨het, hd, hti, hde, hw, hr, hu, hsc, hcf, hm⟩ := hs
  obtain ⟨⟨m0, ms, h1, h2, h3⟩, h4, h5, h6, h7, h8, h9⟩ := hy
  refine ⟨⟨m0, ms, hm.trans h1, hd.trans h2, het.trans h3⟩, ?_, ?_, ?_, ?_, ?_, ?_⟩
  · rw [hsc, hm]; exact h4
  · rw [hu, hm]; exact h5
  · rw [hw, hm]; exact h6
  · rw [hr, hm]; exact h7
  · rw [hr, hm]; exact h8
  · unfold WeightNoteProp
    rw [hm, hcf]
    exact h9

theorem CoreInv_init (m : NormalizedEvent) : CoreInv (initCanonical m) := by
  refine ⟨⟨m, [], rfl, rfl, rfl⟩, rfl, ?_, ?_, ?_, ?_, ?_⟩
  · show m.unresolved = List.any [m] NormalizedEvent.unresolved
    simp
  · rfl
  · show recBydays m.recurrence = bydayUnionOf [m]
    unfold bydayUnionOf
    simp
  · rfl
  · intro w1 w2 h1 h2 hne
    simp only [initCanonical, List.map_cons, List.map_nil, List.mem_singleton] at h1 h2
    rw [← h2] at h1
    injection h1 with h1
    exact absurd h1 hne

theorem foldMember_conflicts_mono (c : CanonicalEvent) (m : NormalizedEvent) (s : String)
    (h : s ∈ c.conflicts) : s ∈ (foldMember c m).conflicts :=
  List.mem_append_left _ h

theorem foldMember_weight_note (c : CanonicalEvent) (m : NormalizedEvent) (a b : Nat)
    (hca : c.weight_percent = some a) (hmb : m.weight_percent = some b) (hne : a ≠ b) :
    weightNote (max a b) (min a b) ∈ (foldMember c m).conflicts := by
  show weightNote (max a b) (min a b) ∈ c.conflicts ++ _
  refine List.mem_append_right _ ?_
  simp only [hca, hmb]
  rw [if_pos hne]
  exact List.mem_append_left _ (List.mem_cons_self _ _)

theorem CoreInv_fold (c : CanonicalEvent) (m : NormalizedEvent) (hc : CoreInv c) :
    CoreInv (foldMember c m) := by
  obtain ⟨⟨m0, ms, hmem, hdate, htype⟩, hcount, hunres, hw, hby, hun, hnp⟩ := hc
  have hmap : (foldMember c m).members.map NormalizedEvent.weight_percent =
      c.members.map NormalizedEvent.weight_percent ++ [m.weight_percent] := by
    rw [foldMember_members, List.map_append]
    rfl
  refine ⟨⟨m0, ms ++ [m], ?_, hdate, htype⟩, ?_, ?_, ?_, ?_, ?_, ?_⟩
  · rw [foldMember_members, hmem]
    rfl
  · rw [foldMember_members, List.length_append]
    show c.source_count + 1 = _
    rw [hcount]
    rfl
  · show (c.unresolved || m.unresolved) = (foldMember c m).members.any NormalizedEvent.unresolved
    rw [foldMember_members, List.any_append, hunres]
    simp only [List.any_cons, List.any_nil, Bool.or_false]
  · rw [hmap, maxNonNull_append_one, foldMember_weight, hw]
  · rw [foldMember_members, bydayUnionOf_append_one, foldMember_recurrence_byday, hby]
  · rw [foldMember_members, List.map_append]
    simp only [List.map_cons, List.map_nil]
    rw [maxNonNull_append_one, foldMember_recurrence_until, hun]
  · intro w1 w2 h1 h2 hne12
    rw [hmap] at h1 h2
    have hlift : ∀ x : Option Nat, x ∈ c.members.map NormalizedEvent.weight_percent →
        x ∈ (foldMember c m).members.map NormalizedEvent.weight_percent := by
      intro x hx
      rw [hmap]
      exact List.mem_append_left _ hx
    have hliftm : (m.weight_percent) ∈
        (foldMember c m).members.map NormalizedEvent.weight_percent := by
      rw [hmap]
      exact List.mem_append_right _ (List.mem_cons_self _ _)
    have mixed : ∀ wo wm : Nat, some wo ∈ c.members.map NormalizedEvent.weight_percent →
        m.weight_percent = some wm → wo ≠ wm →
        ∃ a b : Nat, a ≠ b ∧
          some a ∈ (foldMember c m).members.map NormalizedEvent.weight_percent ∧
          some b ∈ (foldMember c m).members.map NormalizedEvent.weight_percent ∧
          weightNote (max a b) (min a b) ∈ (foldMember c m).conflicts := by
      intro wo wm hwo hwm hnewm
      cases hcw : c.weight_percent with
      | none =>
        rw [hw] at hcw
        have h0 := (maxNonNull_eq_none _).mp hcw _ hwo
        simp at h0
      | some a0 =>
        have ha0mem : some a0 ∈ c.members.map NormalizedEvent.weight_percent := by
          rw [hw] at hcw
          exact maxNonNull_mem _ _ hcw
        by_cases ha0 : a0 = wm
        · have hwo0 : wo ≠ a0 := by rw [ha0]; exact hnewm
          obtain ⟨a, b, hab, hma, hmb, hnote⟩ := hnp wo a0 hwo ha0mem hwo0
          exact ⟨a, b, hab, hlift _ hma, hlift _ hmb,
            foldMember_conflicts_mono c m _ hnote⟩
        · refine ⟨a0, wm, ha0, hlift _ ha0mem, ?_, ?_⟩
          · rw [← hwm]; exact hliftm
          · exact foldMember_weight_note c m a0 wm hcw hwm ha0
    rcases List.mem_append.mp h1 with ho1 | hm1
    · rcases List.mem_append.mp h2 with ho2 | hm2
      · obtain ⟨a, b, hab, hma, hmb, hnote⟩ := hnp w1 w2 ho1 ho2 hne12
        exact ⟨a, b, hab, hlift _ hma, hlift _ hmb,
          foldMember_conflicts_mono c m _ hnote⟩
      · have hwm : m.weight_percent = some w2 := (List.mem_singleton.mp hm2).symm
        exact mixed w1 w2 ho1 hwm hne12
    · rcases List.mem_append.mp h2 with ho2 | hm2
      · have hwm : m.weight_percent = some w1 := (List.mem_singleton.mp hm1).symm
        exact mixed w2 w1 ho2 hwm (Ne.symm hne12)
      · have e1 : m.weight_percent = some w1 := (List.mem_singleton.mp hm1).symm
        have e2 : m.weight_percent = some w2 := (List.mem_singleton.mp hm2).symm
        rw [e1] at e2
        injection e2 with e2
        exact absurd e2 hne12

theorem CoreInv_insertMember (cs : List CanonicalEvent) (m : NormalizedEvent)
    (h : ∀ c ∈ cs, CoreInv c) : ∀ c ∈ insertMember cs m, CoreInv c := by
  induction cs with
  | nil =>
    intro c hc
    rw [show insertMember [] m = [initCanonical m] from rfl] at hc
    rw [List.mem_singleton.mp hc]
    exact CoreInv_init m
  | cons c0 cs ih =>
    intro c hc
    rw [show insertMember (c0 :: cs) m = (if gateTrigger c0 m = true
        then c0 :: insertMember cs m else foldMember c0 m :: cs) from rfl] at hc
    by_cases hg : gateTrigger c0 m = true
    · rw [if_pos hg] at hc
      rcases List.mem_cons.mp hc with h1 | h1
      · rw [h1]; exact h c0 (List.mem_cons_self _ _)
      · exact ih (fun c' hc' => h c' (List.mem_cons_of_mem _ hc')) c h1
    · rw [if_neg hg] at hc
      rcases List.mem_cons.mp hc with h1 | h1
      · rw [h1]; exact CoreInv_fold c0 m (h c0 (List.mem_cons_self _ _))
      · exact h c (List.mem_cons_of_mem _ h1)

theorem CoreInv_foldl (g : List NormalizedEvent) :
    ∀ acc, (∀ c ∈ acc, CoreInv c) → ∀ c ∈ g.foldl insertMember acc, CoreInv c := by
  induction g with
  | nil => intro acc h c hc; exact h c hc
  | cons m g ih =>
    intro acc h c hc
    rw [List.foldl_cons] at hc
    exact ih (insertMember acc m) (CoreInv_insertMember acc m h) c hc

theorem mergeGroup_core (g : List NormalizedEvent) : ∀ c ∈ mergeGroup g, CoreInv c := by
  intro c hc
  obtain ⟨c0, hc0, hs⟩ := retitle_same _ c hc
  exact CoreInv_transfer c c0 hs (CoreInv_foldl g [] (by simp) c0 hc0)

theorem membersOf_mergeGroup (g : List NormalizedEvent) :
    (membersOf (mergeGroup g)).Perm g := by
  rw [show mergeGroup g = retitle (g.foldl insertMember []) from rfl, membersOf_retitle]
  simpa using membersOf_foldl g []

theorem mem_members_mem_group (g : List NormalizedEvent) (c : CanonicalEvent)
    (m : NormalizedEvent) (hc : c ∈ mergeGroup g) (hm : m ∈ c.members) : m ∈ g :=
  ((membersOf_mergeGroup g).mem_iff).mp
    (List.mem_flatten.mpr ⟨c.members, List.mem_map_of_mem _ hc, hm⟩)

theorem exists_canon_with_member (g : List NormalizedEvent) (m : NormalizedEvent)
    (hm : m ∈ g) : ∃ c ∈ mergeGroup g, m ∈ c.members := by
  have h1 : m ∈ membersOf (mergeGroup g) := ((membersOf_mergeGroup g).mem_iff).mpr hm
  obtain ⟨l, hl, hml⟩ := List.mem_flatten.mp h1
  obtain ⟨c, hc, rfl⟩ := List.mem_map.mp hl
  exact ⟨c, hc, hml⟩

theorem groupByFpF_flatten (fuel : Nat) :
    ∀ ns : List NormalizedEvent, ns.length ≤ fuel →
      ((groupByFpF fuel ns).flatten).Perm ns := by
  induction fuel with
  | zero =>
    intro ns h
    have h0 : ns = [] := List.eq_nil_of_length_eq_zero (Nat.le_zero.mp h)
    rw [h0]
    exact List.Perm.refl _
  | succ fuel ih =>
    intro ns h
    cases ns with
    | nil => exact List.Perm.refl _
    | cons n ns =>
      rw [show groupByFpF (fuel + 1) (n :: ns) =
          (n :: ns.filter (fun m => decide (fingerprint m = fingerprint n))) ::
            groupByFpF fuel (ns.filter (fun m => decide (fingerprint m ≠ fingerprint n)))
          from rfl]
      rw [List.flatten_cons]
      have hlen : (ns.filter (fun m => decide (fingerprint m ≠ fingerprint n))).length ≤ fuel :=
        le_trans (List.length_filter_le _ _) (by simpa using h)
      have h2 := List.Perm.append_left
        (n :: ns.filter (fun m => decide (fingerprint m = fingerprint n))) (ih _ hlen)
      refine h2.trans ?_
      show (n :: (ns.filter _ ++ ns.filter _)).Perm (n :: ns)
      refine List.Perm.cons n ?_
      have hcongr : ns.filter (fun m => decide (fingerprint m ≠ fingerprint n)) =
          ns.filter (fun m => !(decide (fingerprint m = fingerprint n))) :=
        List.filter_congr (fun x _ => by simp [decide_not])
      rw [hcongr]
      exact List.filter_append_perm _ ns

theorem groupByFpF_fp (fuel : Nat) :
    ∀ ns : List NormalizedEvent, ∀ g ∈ groupByFpF fuel ns,
      ∃ f0, ∀ m ∈ g, fingerprint m = f0 := by
  induction fuel with
  | zero => intro ns g hg; simp [groupByFpF] at hg
  | succ fuel ih =>
    intro ns g hg
    cases ns with
    | nil => simp [groupByFpF] at hg
    | cons n ns =>
      rcases List.mem_cons.mp hg with h1 | h1
      · refine ⟨fingerprint n, ?_⟩
        intro m hm
        rw [h1] at hm
        rcases List.mem_cons.mp hm with h2 | h2
        · rw [h2]
        · exact of_decide_eq_true (List.mem_filter.mp h2).2
      · exact ih _ g h1

theorem mergeEngine_perm (ns : List NormalizedEvent) :
    (mergeEngine ns).Perm ((groupByFp ns).map mergeGroup).flatten :=
  List.perm_insertionSort _ _

theorem exists_engine_canon (ns : List NormalizedEvent) (n : NormalizedEvent)
    (hn : n ∈ ns) :
    ∃ c ∈ mergeEngine ns, n ∈ c.members ∧
      (∀ m ∈ c.members, fingerprint m = fingerprint n) ∧ CoreInv c := by
  have hflat := groupByFpF_flatten ns.length ns le_rfl
  have h1 : n ∈ (groupByFp ns).flatten := hflat.mem_iff.mpr hn
  obtain ⟨g, hg, hng⟩ := List.mem_flatten.mp h1
  obtain ⟨f0, hf0⟩ := groupByFpF_fp ns.length ns g hg
  obtain ⟨c, hc, hnc⟩ := exists_canon_with_member g n hng
  have hcm : ∀ m ∈ c.members, fingerprint m = fingerprint n := fun m hm =>
    (hf0 m (mem_members_mem_group g c m hc hm)).trans (hf0 n hng).symm
  have hce : c ∈ mergeEngine ns := (mergeEngine_perm ns).mem_iff.mpr
    (List.mem_flatten.mpr ⟨mergeGroup g, List.mem_map_of_mem _ hg, hc⟩)
  exact ⟨c, hce, hnc, hcm, mergeGroup_core g c hc⟩

theorem engine_core (ns : List NormalizedEvent) : ∀ c ∈ mergeEngine ns, CoreInv c := by
  intro c hc
  have hc2 := (mergeEngine_perm ns).mem_iff.mp hc
  obtain ⟨l, hl, hcl⟩ := List.mem_flatten.mp hc2
  obtain ⟨g, hg, rfl⟩ := List.mem_map.mp hl
  exact mergeGroup_core g c hcl

theorem membersOf_flatten_mergeGroups (G : List (List NormalizedEvent)) :
    (membersOf ((G.map mergeGroup).flatten)).Perm G.flatten := by
  induction G with
  | nil => exact List.Perm.refl _
  | cons g G ih =>
    rw [List.map_cons, List.flatten_cons, List.flatten_cons]
    have heq : membersOf (mergeGroup g ++ (G.map mergeGroup).flatten) =
        membersOf (mergeGroup g) ++ membersOf ((G.map mergeGroup).flatten) := by
      unfold membersOf
      rw [List.map_append, List.flatten_append]
    rw [heq]
    exact List.Perm.append (membersOf_mergeGroup g) ih

theorem membersOf_perm_of_perm (cs ds : List CanonicalEvent) (h : cs.Perm ds) :
    (membersOf cs).Perm (membersOf ds) := (h.map CanonicalEvent.members).flatten

theorem pipeline_members_perm (anchor : Option TermAnchor) (raws : List RawEvent) :
    (membersOf (pipeline anchor raws)).Perm (raws.map (normalizeEvent anchor)) := by
  have h1 := membersOf_perm_of_perm _ _ (mergeEngine_perm (raws.map (normalizeEvent anchor)))
  refine h1.trans ?_
  refine (membersOf_flatten_mergeGroups _).trans ?_
  exact groupByFpF_flatten _ _ le_rfl

theorem sum_source_of_inv (cs : List CanonicalEvent)
    (h : ∀ c ∈ cs, c.source_count = c.members.length) :
    (cs.map CanonicalEvent.source_count).sum = (membersOf cs).length := by
  induction cs with
  | nil => rfl
  | cons c cs ih =>
    rw [List.map_cons, List.sum_cons, membersOf_cons, List.length_append,
      h c (List.mem_cons_self _ _), ih (fun c' hc' => h c' (List.mem_cons_of_mem _ hc'))]

theorem pipeline_sum_source (anchor : Option TermAnchor) (raws : List RawEvent) :
    ((pipeline anchor raws).map CanonicalEvent.source_count).sum = raws.length := by
  have hinv : ∀ c ∈ pipeline anchor raws, c.source_count = c.members.length :=
    fun c hc => (engine_core _ c hc).2.1
  rw [sum_source_of_inv _ hinv, (pipeline_members_perm anchor raws).length_eq,
    List.length_map]

theorem title_eq_of_fp_eq (m n : NormalizedEvent)
    (h : fingerprint m = fingerprint n) : m.canonical_title = n.canonical_title :=
  congrArg Prod.fst h

theorem type_eq_of_fp_eq (m n : NormalizedEvent)
    (h : fingerprint m = fingerprint n) : m.event_type = n.event_type :=
  congrArg (fun p => p.2.1) h

theorem date_none_of_fp_eq (m n : NormalizedEvent) (h : fingerprint m = fingerprint n)
    (hd : n.date = none) : m.date = none := by
  have h3 : (fingerprint m).2.2 = (fingerprint n).2.2 := congrArg (fun p => p.2.2) h
  rw [show (fingerprint m).2.2 = (match m.date with
      | some d => (Sum.inl d : Nat ⊕ Option (Option Nat))
      | none => Sum.inr (m.recurrence.map (fun rr => rr.untilDate))) from rfl,
    show (fingerprint n).2.2 = (match n.date with
      | some d => (Sum.inl d : Nat ⊕ Option (Option Nat))
      | none => Sum.inr (n.recurrence.map (fun rr => rr.untilDate))) from rfl,
    hd] at h3
  cases hm : m.date with
  | none => rfl
  | some d =>
    rw [hm] at h3
    exact absurd h3 (by simp)

theorem date_eq_of_fp_eq (m n : NormalizedEvent) (h : fingerprint m = fingerprint n)
    (d : Nat) (hd : n.date = some d) : m.date = some d := by
  have h3 : (fingerprint m).2.2 = (fingerprint n).2.2 := congrArg (fun p => p.2.2) h
  rw [show (fingerprint m).2.2 = (match m.date with
      | some d => (Sum.inl d : Nat ⊕ Option (Option Nat))
      | none => Sum.inr (m.recurrence.map (fun rr => rr.untilDate))) from rfl,
    show (fingerprint n).2.2 = (match n.date with
      | some d => (Sum.inl d : Nat ⊕ Option (Option Nat))
      | none => Sum.inr (n.recurrence.map (fun rr => rr.untilDate))) from rfl,
    hd] at h3
  cases hm : m.date with
  | none =>
    rw [hm] at h3
    exact absurd h3 (by simp)
  | some d2 =>
    rw [hm] at h3
    have h4 : (Sum.inl d2 : Nat ⊕ Option (Option Nat)) = Sum.inl d := h3
    have h5 : d2 = d := by injection h4
    rw [h5]

theorem gateTrigger_false_of_date_none (c : CanonicalEvent) (m : NormalizedEvent)
    (h : c.date = none) : gateTrigger c m = false := by
  unfold gateTrigger
  rw [h]
  rfl

theorem foldl_insert_single (g : List NormalizedEvent) :
    ∀ c0, c0.date = none → g.foldl insertMember [c0] = [g.foldl foldMember c0] := by
  induction g with
  | nil => intro c0 h; rfl
  | cons m g ih =>
    intro c0 h
    rw [List.foldl_cons, List.foldl_cons]
    have h1 : insertMember [c0] m = [foldMember c0 m] := by
      rw [show insertMember [c0] m = (if gateTrigger c0 m = true
          then c0 :: insertMember [] m else foldMember c0 m :: []) from rfl]
      rw [gateTrigger_false_of_date_none c0 m h]
      simp
    rw [h1]
    exact ih (foldMember c0 m) (by rw [show (foldMember c0 m).date = c0.date from rfl, h])

theorem mergeGroup_date_none_single (g : List NormalizedEvent)
    (hne : g ≠ []) (hg : ∀ m ∈ g, m.date = none) : ∃ c, mergeGroup g = [c] := by
  cases g with
  | nil => exact absurd rfl hne
  | cons m0 g2 =>
    refine ⟨g2.foldl foldMember (initCanonical m0), ?_⟩
    unfold mergeGroup
    rw [List.foldl_cons]
    rw [show insertMember [] m0 = [initCanonical m0] from rfl]
    rw [foldl_insert_single g2 (initCanonical m0)
      (show m0.date = none from hg m0 (List.mem_cons_self _ _))]
    rfl

theorem foldl_foldMember_title (g : List NormalizedEvent) :
    ∀ c, (g.foldl foldMember c).canonical_title = c.canonical_title := by
  induction g with
  | nil => intro c; rfl
  | cons m g ih =>
    intro c
    rw [List.foldl_cons, ih (foldMember c m)]
    rfl

theorem engine_canon_of_date_none (ns : List NormalizedEvent) (n : NormalizedEvent)
    (hn : n ∈ ns) (hnd : n.date = none) :
    ∃ c ∈ mergeEngine ns, n ∈ c.members ∧ c.date = none ∧
      c.unresolved = c.members.any NormalizedEvent.unresolved ∧
      c.canonical_title = n.canonical_title := by
  have hflat := groupByFpF_flatten ns.length ns le_rfl
  obtain ⟨g, hg, hng⟩ := List.mem_flatten.mp (hflat.mem_iff.mpr hn)
  obtain ⟨f0, hf0⟩ := groupByFpF_fp ns.length ns g hg
  have hgd : ∀ m ∈ g, m.date = none := fun m hm =>
    date_none_of_fp_eq m n ((hf0 m hm).trans (hf0 n hng).symm) hnd
  cases g with
  | nil => simp at hng
  | cons m0 g2 =>
    have hsingle : mergeGroup (m0 :: g2) = [g2.foldl foldMember (initCanonical m0)] := by
      unfold mergeGroup
      rw [List.foldl_cons, show insertMember [] m0 = [initCanonical m0] from rfl,
        foldl_insert_single g2 (initCanonical m0)
          (show m0.date = none from hgd m0 (List.mem_cons_self _ _))]
      rfl
    set c := g2.foldl foldMember (initCanonical m0) with hcdef
    have hcmem : c ∈ mergeGroup (m0 :: g2) := by
      rw [hsingle]
      exact List.mem_singleton.mpr rfl
    obtain ⟨⟨mh, ms, hm, hd0, _⟩, _, hunres, _⟩ := mergeGroup_core _ c hcmem
    have hmembers : (c.members).Perm (m0 :: g2) := by
      have h1 := membersOf_mergeGroup (m0 :: g2)
      rw [hsingle] at h1
      simpa [membersOf] using h1
    have hnc : n ∈ c.members := hmembers.mem_iff.mpr hng
    have hmhg : mh ∈ (m0 :: g2) :=
      hmembers.mem_iff.mp (by rw [hm]; exact List.mem_cons_self _ _)
    have hcd : c.date = none := by
      rw [hd0]
      exact hgd mh hmhg
    have htitle : c.canonical_title = n.canonical_title := by
      have h1 : c.canonical_title = m0.canonical_title := foldl_foldMember_title g2 _
      have h3 : fingerprint m0 = fingerprint n :=
        (hf0 m0 (List.mem_cons_self _ _)).trans (hf0 n hng).symm
      rw [h1]
      exact title_eq_of_fp_eq m0 n h3
    have hce : c ∈ mergeEngine ns := (mergeEngine_perm ns).mem_iff.mpr
      (List.mem_flatten.mpr ⟨mergeGroup (m0 :: g2), List.mem_map_of_mem _ hg, hcmem⟩)
    exact ⟨c, hce, hnc, hcd, hunres, htitle⟩

/-! ### Concrete example events, used to instantiate the theorems -/

/-- A raw event whose relative date hint cannot be resolved without an
anchor (the unresolved-date example of section 8). -/
def rawEssay : RawEvent :=
  { title := some "Essay", date_hint := some "Week 12 Friday", time_hint := none,
    type_hint := some "assignment", description := none, weight_hint := none,
    recurrence_hint := none }

/-- A generic quiz on one absolute date (the non-merge example of
section 8). -/
def rawQuizA : RawEvent :=
  { title := some "Quiz", date_hint := some "2025-02-03", time_hint := none,
    type_hint := some "quiz", description := none, weight_hint := none,
    recurrence_hint := none }

/-- The same generic quiz on another date. -/
def rawQuizB : RawEvent := { rawQuizA with date_hint := some "2025-02-10" }

/-- One alias-normalized midterm record with a small weight. -/
def rawMidA : RawEvent :=
  { title := some "Midterm #1", date_hint := some "2025-03-10", time_hint := none,
    type_hint := some "exam", description := none, weight_hint := some "10%",
    recurrence_hint := none }

/-- The other alias-normalized midterm record, far apart in weight. -/
def rawMidB : RawEvent :=
  { rawMidA with title := some "Midterm Exam 1", weight_hint := some "95%" }

/-- The Monday lecture of the recurrence-union example of section 8. -/
def rawMon : RawEvent :=
  { title := some "Lecture", date_hint := none, time_hint := none,
    type_hint := some "lecture", description := none, weight_hint := none,
    recurrence_hint := some "every Monday until 2025-12-01" }

/-- The Wednesday lecture of the recurrence-union example of section 8. -/
def rawWed : RawEvent :=
  { rawMon with recurrence_hint := some "every Wednesday until 2025-12-01" }

/-- A normalized event with weight ten, for the weight-conservation group. -/
def neW10 : NormalizedEvent :=
  { canonical_title := "Project", event_type := EventType.assignment, date := some 100,
    time := none, description_sentences := [], weight_percent := some 10,
    recurrence := none, unresolved := false, orig_title := "Project",
    alias_applied := false }

/-- The same event carrying weight fifteen. -/
def neW15 : NormalizedEvent := { neW10 with weight_percent := some 15 }

/-- The canonical event obtained by folding the two weight examples. -/
def cW : CanonicalEvent := foldMember (initCanonical neW10) neW15

/-- The canonical event obtained by folding the two recurrence examples. -/
def cMW : CanonicalEvent :=
  foldMember (initCanonical (normalizeEvent none rawMon)) (normalizeEvent none rawWed)

/-! ### The claims -/

/-- C1: no-loss invariant: over every input batch, the source counts of the
pipeline output sum to the number of input RawEvents, every source count is
at least one, and the recorded provenance is a permutation of the normalized
inputs, so every RawEvent maps to exactly one CanonicalEvent. -/
theorem c1_no_loss (anchor : Option TermAnchor) (raws : List RawEvent) :
    ((pipeline anchor raws).map CanonicalEvent.source_count).sum = raws.length ∧
    (∀ c ∈ pipeline anchor raws, 1 ≤ c.source_count) ∧
    (membersOf (pipeline anchor raws)).Perm (raws.map (normalizeEvent anchor)) := by
  refine ⟨pipeline_sum_source anchor raws, ?_, pipeline_members_perm anchor raws⟩
  intro c hc
  obtain ⟨⟨m0, ms, hm, _, _⟩, hcount, _⟩ := engine_core _ c hc
  rw [hcount, hm]
  simp

/-- C1 witness: the no-loss facts evaluated on a concrete two-record
batch. -/
theorem c1_no_loss_witness :
    ((pipeline none [rawQuizA, rawQuizB]).map CanonicalEvent.source_count).sum = 2 :=
  (c1_no_loss none [rawQuizA, rawQuizB]).1

/-- C2: the pipeline output is sorted by the total order of section 3 (date
ascending, null dates last, ties by canonical title), and the pipeline is
deterministic: equal inputs give equal outputs. -/
theorem c2_output_order (anchor : Option TermAnchor) (raws : List RawEvent) :
    List.Sorted canonRel (pipeline anchor raws) ∧
    (∀ raws2, raws = raws2 → pipeline anchor raws = pipeline anchor raws2) :=
  ⟨List.sorted_insertionSort canonRel _, fun _ h => by rw [h]⟩

/-- C2 witness: determinism applied at a concrete batch. -/
theorem c2_output_order_witness :
    pipeline none [rawQuizA, rawQuizB] = pipeline none [rawQuizA, rawQuizB] :=
  (c2_output_order none [rawQuizA, rawQuizB]).2 [rawQuizA, rawQuizB] rfl

/-- C3: a RawEvent whose date hint is a relative Week-N phrase, when the
anchor is absent or invalid or the week number is negative or beyond the
configured term length, normalizes to a null date with the unresolved
marker; the pipeline output contains a CanonicalEvent with a null date, the
unresolved marker and that record's canonical title (no date is fabricated);
and the rest of the batch is still processed, the source counts still
summing to the full batch size. -/
theorem c3_unresolved_date (anchor : Option TermAnchor) (raws : List RawEvent)
    (r : RawEvent) (h : String) (n : Int) (wd : Option (List Char))
    (hr : r ∈ raws) (hh : r.date_hint = some h)
    (habs : parseAbsTokens (splitCh ' ' (lowerL h.data)) = none)
    (hrel : parseRelTokens (splitCh ' ' (lowerL h.data)) = some (n, wd))
    (hbad : anchor = none ∨ (∃ a, anchor = some a ∧ anchorValid a = false) ∨
      n < 0 ∨ n > (termLengthWeeks : Int)) :
    (normalizeEvent anchor r).date = none ∧
    (normalizeEvent anchor r).unresolved = true ∧
    (∃ c ∈ pipeline anchor raws, c.date = none ∧ c.unresolved = true ∧
      c.canonical_title = normalize_title (r.title.getD "")) ∧
    ((pipeline anchor raws).map CanonicalEvent.source_count).sum = raws.length := by
  have hres : resolveDate anchor h.data = (none, true) := by
    simp only [resolveDate, habs, hrel]
    rcases hbad with hb | ⟨a, ha, hav⟩ | hb | hb
    · rw [hb]
    · rw [ha]
      simp [hav]
    · cases anchor with
      | none => rfl
      | some a =>
        by_cases hv : anchorValid a = false
        · simp [hv]
        · simp [hv, hb]
    · cases anchor with
      | none => rfl
      | some a =>
        by_cases hv : anchorValid a = false
        · simp [hv]
        · simp [hv, hb]
  have hnd : (normalizeEvent anchor r).date = none := by
    show (match r.date_hint with
      | none => ((none : Option Nat), false)
      | some h0 => resolveDate anchor h0.data).1 = none
    rw [hh]
    show (resolveDate anchor h.data).1 = none
    rw [hres]
  have hnu : (normalizeEvent anchor r).unresolved = true := by
    show (match r.date_hint with
      | none => ((none : Option Nat), false)
      | some h0 => resolveDate anchor h0.data).2 = true
    rw [hh]
    show (resolveDate anchor h.data).2 = true
    rw [hres]
  refine ⟨hnd, hnu, ?_, pipeline_sum_source anchor raws⟩
  have hmem : normalizeEvent anchor r ∈ raws.map (normalizeEvent anchor) :=
    List.mem_map_of_mem _ hr
  obtain ⟨c, hce, hnc, hcd, hcu, htitle⟩ :=
    engine_canon_of_date_none _ (normalizeEvent anchor r) hmem hnd
  refine ⟨c, hce, hcd, ?_, ?_⟩
  · rw [hcu]
    exact List.any_eq_true.mpr ⟨normalizeEvent anchor r, hnc, hnu⟩
  · rw [htitle]
    rfl

/-- C3 witness: the theorem applied to the concrete Week 12 Friday record
with no anchor. -/
theorem c3_unresolved_date_witness :
    rawEssay ∈ [rawEssay] ∧
    ((normalizeEvent (none : Option TermAnchor) rawEssay).date = none ∧
     (normalizeEvent (none : Option TermAnchor) rawEssay).unresolved = true ∧
     (∃ c ∈ pipeline none [rawEssay], c.date = none ∧ c.unresolved = true ∧
       c.canonical_title = normalize_title (rawEssay.title.getD "")) ∧
     ((pipeline none [rawEssay]).map CanonicalEvent.source_count).sum =
       [rawEssay].length) :=
  ⟨by decide, c3_unresolved_date none [rawEssay] rawEssay "Week 12 Friday" 12
    (some "friday".data) (by decide) rfl (by decide) (by decide) (Or.inl rfl)⟩

/-- C4: when the merge engine folds a group, each resulting CanonicalEvent
carries as weight the maximum non-null weight of the members folded into it
(null exactly when they are all null), and whenever two of those members
carry distinct non-null weights, a conflict note naming two distinct
recorded weight values (the kept maximum and the discarded one) is present
in its conflicts. -/
theorem c4_weight_conservation (g : List NormalizedEvent) (c : CanonicalEvent)
    (hc : c ∈ mergeGroup g) :
    c.weight_percent = maxNonNull (c.members.map NormalizedEvent.weight_percent) ∧
    (c.weight_percent = none ↔ ∀ m ∈ c.members, m.weight_percent = none) ∧
    (∀ w1 w2 : Nat, some w1 ∈ c.members.map NormalizedEvent.weight_percent →
      some w2 ∈ c.members.map NormalizedEvent.weight_percent → w1 ≠ w2 →
      ∃ a b : Nat, a ≠ b ∧ some a ∈ c.members.map NormalizedEvent.weight_percent ∧
        some b ∈ c.members.map NormalizedEvent.weight_percent ∧
        weightNote (max a b) (min a b) ∈ c.conflicts) := by
  obtain ⟨_, _, _, hw, _, _, hnp⟩ := mergeGroup_core g c hc
  refine ⟨hw, ?_, hnp⟩
  rw [hw, maxNonNull_eq_none]
  constructor
  · intro h1 m hm
    exact h1 _ (List.mem_map_of_mem _ hm)
  · intro h1 o ho
    obtain ⟨m, hm, rfl⟩ := List.mem_map.mp ho
    exact h1 m hm

/-- C4 witness: folding the weights ten and fifteen keeps fifteen and notes
the conflict, matching the section 8 example. -/
theorem c4_weight_conservation_witness :
    cW ∈ mergeGroup [neW10, neW15] ∧
    cW.weight_percent = maxNonNull (cW.members.map NormalizedEvent.weight_percent) ∧
    cW.weight_percent = some 15 ∧ weightNote 15 10 ∈ cW.conflicts :=
  ⟨by decide, (c4_weight_conservation [neW10, neW15] cW (by decide)).1,
   by decide, by decide⟩

/-- C6: a recurrence-keyed group (all members with null dates) folds into a
CanonicalEvent with a null date whose weekday set is the union of its
members' weekday sets and whose until date is the latest non-null until
among them, the members being exactly the group; in particular the two
every-Monday and every-Wednesday lecture records with the same title, type
and until merge into one CanonicalEvent with the weekday set Monday and
Wednesday. -/
theorem c6_recurrence_merge (g : List NormalizedEvent) (c : CanonicalEvent)
    (hg : ∀ m ∈ g, m.date = none) (hc : c ∈ mergeGroup g) :
    c.date = none ∧
    recBydays c.recurrence = bydayUnionOf c.members ∧
    recUntil c.recurrence = maxNonNull (c.members.map (fun m => recUntil m.recurrence)) ∧
    (c.members).Perm g ∧
    (pipeline none [rawMon, rawWed]).map
        (fun x => (recBydays x.recurrence, recUntil x.recurrence, x.date, x.source_count)) =
      [({0, 2}, some (dateCode 2025 12 1), none, 2)] := by
  obtain ⟨⟨m0, ms, hm, hd0, _⟩, _, _, _, hby, hun, _⟩ := mergeGroup_core g c hc
  have hgne : g ≠ [] := by
    intro h0
    rw [h0, show mergeGroup [] = [] from rfl] at hc
    simp at hc
  obtain ⟨c0, hc0⟩ := mergeGroup_date_none_single g hgne hg
  have hcc0 : c = c0 := by
    rw [hc0] at hc
    exact List.mem_singleton.mp hc
  have hmembers : (c.members).Perm g := by
    have h1 := membersOf_mergeGroup g
    rw [hc0] at h1
    rw [hcc0]
    simpa [membersOf] using h1
  have hm0g : m0 ∈ g := hmembers.mem_iff.mp (by rw [hm]; exact List.mem_cons_self _ _)
  exact ⟨by rw [hd0]; exact hg m0 hm0g, hby, hun, hmembers, by decide⟩

/-- C6 witness: the theorem applied to the two normalized recurrence
records. -/
theorem c6_recurrence_merge_witness :
    cMW ∈ mergeGroup [normalizeEvent none rawMon, normalizeEvent none rawWed] ∧
    recBydays cMW.recurrence = bydayUnionOf cMW.members ∧
    recBydays cMW.recurrence = {0, 2} :=
  ⟨by decide,
   (c6_recurrence_merge [normalizeEvent none rawMon, normalizeEvent none rawWed] cMW
     (by decide) (by decide)).2.1,
   by decide⟩

/-- C7: non-merge safety: two normalized events with different fingerprints
always end in two different CanonicalEvents; in particular two events with
the same canonical title and type but different resolved dates give two
output events carrying those dates; and the two alias-normalized midterm
records with far-apart weights are split by the gate into two
CanonicalEvents sharing the fingerprint title disambiguated by occurrence
indices. -/
theorem c7_non_merge_safety :
    (∀ (ns : List NormalizedEvent) (n1 n2 : NormalizedEvent), n1 ∈ ns → n2 ∈ ns →
      fingerprint n1 ≠ fingerprint n2 →
      ∃ c1 ∈ mergeEngine ns, ∃ c2 ∈ mergeEngine ns, c1 ≠ c2 ∧
        n1 ∈ c1.members ∧ n2 ∈ c2.members) ∧
    (∀ (ns : List NormalizedEvent) (n1 n2 : NormalizedEvent) (d1 d2 : Nat),
      n1 ∈ ns → n2 ∈ ns → n1.date = some d1 → n2.date = some d2 → d1 ≠ d2 →
      ∃ c1 ∈ mergeEngine ns, ∃ c2 ∈ mergeEngine ns,
        c1.date = some d1 ∧ c2.date = some d2 ∧ c1 ≠ c2 ∧
        n1 ∈ c1.members ∧ n2 ∈ c2.members) ∧
    ((pipeline none [rawMidA, rawMidB]).map
        (fun c => (c.canonical_title, c.source_count, c.weight_percent)) =
      [("Midterm 1 (1)", 1, some 10), ("Midterm 1 (2)", 1, some 95)]) := by
  have hgen : ∀ (ns : List NormalizedEvent) (n1 n2 : NormalizedEvent), n1 ∈ ns → n2 ∈ ns →
      fingerprint n1 ≠ fingerprint n2 →
      ∃ c1, (c1 ∈ mergeEngine ns ∧ n1 ∈ c1.members ∧
        (∀ m ∈ c1.members, fingerprint m = fingerprint n1) ∧ CoreInv c1) ∧
      ∃ c2, (c2 ∈ mergeEngine ns ∧ n2 ∈ c2.members ∧
        (∀ m ∈ c2.members, fingerprint m = fingerprint n2) ∧ CoreInv c2) ∧ c1 ≠ c2 := by
    intro ns n1 n2 h1 h2 hne
    obtain ⟨c1, hc1e, hn1, hfp1, hcore1⟩ := exists_engine_canon ns n1 h1
    obtain ⟨c2, hc2e, hn2, hfp2, hcore2⟩ := exists_engine_canon ns n2 h2
    refine ⟨c1, ⟨hc1e, hn1, hfp1, hcore1⟩, c2, ⟨hc2e, hn2, hfp2, hcore2⟩, ?_⟩
    intro heq
    exact hne (hfp2 n1 (heq ▸ hn1))
  refine ⟨?_, ?_, by decide⟩
  · intro ns n1 n2 h1 h2 hne
    obtain ⟨c1, ⟨hc1e, hn1c, _, _⟩, c2, ⟨hc2e, hn2c, _, _⟩, hcc⟩ := hgen ns n1 n2 h1 h2 hne
    exact ⟨c1, hc1e, c2, hc2e, hcc, hn1c, hn2c⟩
  · intro ns n1 n2 d1 d2 h1 h2 hd1 hd2 hdd
    have hne : fingerprint n1 ≠ fingerprint n2 := by
      intro he
      have h3 := date_eq_of_fp_eq n1 n2 he d2 hd2
      rw [hd1] at h3
      injection h3 with h3
      exact hdd h3
    obtain ⟨c1, ⟨hc1e, hn1c, hfp1, hcore1⟩, c2, ⟨hc2e, hn2c, hfp2, hcore2⟩, hcc⟩ :=
      hgen ns n1 n2 h1 h2 hne
    obtain ⟨⟨mh1, ms1, hm1, hdd1, _⟩, _⟩ := hcore1
    have hc1d : c1.date = some d1 := by
      rw [hdd1]
      exact date_eq_of_fp_eq mh1 n1
        (hfp1 mh1 (by rw [hm1]; exact List.mem_cons_self _ _)) d1 hd1
    obtain ⟨⟨mh2, ms2, hm2, hdd2, _⟩, _⟩ := hcore2
    have hc2d : c2.date = some d2 := by
      rw [hdd2]
      exact date_eq_of_fp_eq mh2 n2
        (hfp2 mh2 (by rw [hm2]; exact List.mem_cons_self _ _)) d2 hd2
    exact ⟨c1, hc1e, c2, hc2e, hc1d, hc2d, hcc, hn1c, hn2c⟩

/-- C7 witness: the separation statement applied to the two generic quizzes
on different dates. -/
theorem c7_non_merge_safety_witness :
    ∃ c1 ∈ mergeEngine [normalizeEvent none rawQuizA, normalizeEvent none rawQuizB],
    ∃ c2 ∈ mergeEngine [normalizeEvent none rawQuizA, normalizeEvent none rawQuizB],
      c1 ≠ c2 ∧ normalizeEvent none rawQuizA ∈ c1.members ∧
      normalizeEvent none rawQuizB ∈ c2.members :=
  (c7_non_merge_safety).1 [normalizeEvent none rawQuizA, normalizeEvent none rawQuizB]
    (normalizeEvent none rawQuizA) (normalizeEvent none rawQuizB)
    (by decide) (by decide) (by decide)

end CourseCal
